import Mathlib

/-!
Verification of the BioSimulation island model.

This file gives a shallow embedding of the core simulation code
(`animal.py`, `landscape.py`, `island.py`) and proves the specified
properties about it.  Python floats are modelled as real numbers,
ages and object identities as naturals, and the process-wide
pseudo-random generator as a record of value streams together with
consumption indices (each call to `random.random`, `random.choice(range(4))`
or `random.gauss` consumes the next entry of the corresponding stream).
-/

/-- Species parameter table (the class-level `params` dict of
`Herbivore` / `Carnivore` in `animal.py`).  `DeltaPhiMax` is present only
in the carnivore table in the source; it is carried here for both species
and simply never read by herbivore behaviour. -/
structure AnimalParams where
  w_birth : ℝ
  sigma_birth : ℝ
  beta : ℝ
  eta : ℝ
  a_half : ℝ
  phi_age : ℝ
  w_half : ℝ
  phi_weight : ℝ
  mu : ℝ
  gamma : ℝ
  zeta : ℝ
  xi : ℝ
  omega : ℝ
  F : ℝ
  DeltaPhiMax : ℝ

/-- Default herbivore parameters (`Herbivore.params` in `animal.py`).
The herbivore table has no `DeltaPhiMax` entry; the field is set to `0`
and is never used by herbivore behaviour. -/
def herbivoreParams : AnimalParams :=
  { w_birth := 8, sigma_birth := 1.5, beta := 0.9, eta := 0.05,
    a_half := 40, phi_age := 0.6, w_half := 10, phi_weight := 0.1,
    mu := 0.25, gamma := 0.2, zeta := 3.5, xi := 1.2, omega := 0.4,
    F := 10, DeltaPhiMax := 0 }

/-- Default carnivore parameters (`Carnivore.params` in `animal.py`). -/
def carnivoreParams : AnimalParams :=
  { w_birth := 6, sigma_birth := 1, beta := 0.75, eta := 0.125,
    a_half := 40, phi_age := 0.3, w_half := 4, phi_weight := 0.4,
    mu := 0.4, gamma := 0.8, zeta := 3.5, xi := 1.1, omega := 0.8,
    F := 50, DeltaPhiMax := 10 }

/-- An animal object: `id` models Python object identity (two distinct
live objects never compare equal under `list.remove`), `age` and `weight`
are the instance attributes of `Animal`. -/
structure Animal where
  id : ℕ
  age : ℕ
  weight : ℝ

/-- The process-wide random generator (the `random` module): streams of
future results for `random.random`, `random.choice(range(4))` and
`random.gauss`, with the index of the next unconsumed entry of each.
Any actual generator run corresponds to one choice of streams. -/
structure Rng where
  floats : ℕ → ℝ
  dirs : ℕ → Fin 4
  gaussians : ℕ → ℝ
  iF : ℕ
  iD : ℕ
  iG : ℕ

/-- Consume one `random.random()` value. -/
def Rng.nextFloat (r : Rng) : ℝ × Rng :=
  (r.floats r.iF, { r with iF := r.iF + 1 })

/-- Consume one `random.choice(range(4))` value. -/
def Rng.nextDir (r : Rng) : Fin 4 × Rng :=
  (r.dirs r.iD, { r with iD := r.iD + 1 })

/-- Consume one `random.gauss(..)` value. -/
def Rng.nextGauss (r : Rng) : ℝ × Rng :=
  (r.gaussians r.iG, { r with iG := r.iG + 1 })

/-- A concrete generator whose streams are identically zero; used to
instantiate theorems at concrete inputs. -/
def zeroRng : Rng :=
  { floats := fun _ => 0, dirs := fun _ => 0, gaussians := fun _ => 0,
    iF := 0, iD := 0, iG := 0 }

/-- `Animal.fitness` (property, `animal.py` lines 56-66): zero when the
weight is not positive, otherwise the product of two logistic terms.
`math.e ** x` is `Real.exp x`. -/
noncomputable def fitness (p : AnimalParams) (a : Animal) : ℝ :=
  if a.weight > 0 then
    (1 / (1 + Real.exp (p.phi_age * ((a.age : ℝ) - p.a_half)))) *
      (1 / (1 + Real.exp (-p.phi_weight * (a.weight - p.w_half))))
  else 0

/-- `Animal.prob_true_or_false` (`animal.py` lines 47-54): draws one
uniform value and compares it with the given probability. -/
noncomputable def prob_true_or_false (prob : ℝ) (r : Rng) : Bool × Rng :=
  let u := r.floats r.iF
  let r' := { r with iF := r.iF + 1 }
  (if u < prob then true else false, r')

/-- `Animal.calculate_procreation_probability` (`animal.py` lines 125-143):
probability `γ · Φ · (N − 1)` clamped above at 1, then converted to a
boolean by one uniform draw. -/
noncomputable def calculate_procreation_probability
    (p : AnimalParams) (a : Animal) (N : ℕ) (r : Rng) : Bool × Rng :=
  let pp := p.gamma * fitness p a * ((N : ℝ) - 1)
  let pp := if pp > 1 then 1 else pp
  prob_true_or_false pp r

/-- `Animal.birth` (`animal.py` lines 145-164): sample a birth weight from
the gaussian stream; on a positive sample with sufficient maternal weight,
subtract `ξ·birth_weight` from the mother and return a newborn of age 0;
otherwise return no offspring and leave the mother unchanged.  `freshId`
models the identity of the newly constructed object. -/
noncomputable def birth (p : AnimalParams) (a : Animal) (freshId : ℕ) (r : Rng) :
    Animal × Option Animal × Rng :=
  let bw := r.gaussians r.iG
  let r' := { r with iG := r.iG + 1 }
  if bw > 0 then
    let wl := p.xi * bw
    if wl ≤ a.weight then
      ({ a with weight := a.weight - wl }, some ⟨freshId, 0, bw⟩, r')
    else (a, none, r')
  else (a, none, r')

/-- `Carnivore.killing_probability` (`animal.py` lines 289-311): never
kills on non-positive fitness disparity, kills surely when the disparity
reaches `DeltaPhiMax`, and otherwise decides by one uniform draw against
`disparity / DeltaPhiMax`. -/
noncomputable def killing_probability
    (p : AnimalParams) (self prey : Animal) (r : Rng) : Bool × Rng :=
  let d := fitness p self - fitness p prey
  if d ≤ 0 then (false, r)
  else if d < p.DeltaPhiMax then
    prob_true_or_false (d / p.DeltaPhiMax) r
  else (true, r)

/-- One plus an exponential is positive. -/
theorem one_add_exp_pos (x : ℝ) : 0 < 1 + Real.exp x := by
  have := Real.exp_pos x
  linarith

/-- Each logistic factor lies strictly between 0 and 1. -/
theorem logistic_mem (x : ℝ) : 0 < 1 / (1 + Real.exp x) ∧ 1 / (1 + Real.exp x) < 1 := by
  have h := one_add_exp_pos x
  constructor
  · positivity
  · rw [div_lt_one h]
    have := Real.exp_pos x
    linarith

/-- Fitness vanishes on non-positive weight (the `else` branch of the
property). -/
theorem fitness_of_nonpos_weight (p : AnimalParams) (a : Animal)
    (h : a.weight ≤ 0) : fitness p a = 0 := by
  unfold fitness
  rw [if_neg (by linarith)]

/-- Fitness is never negative. -/
theorem fitness_nonneg (p : AnimalParams) (a : Animal) : 0 ≤ fitness p a := by
  unfold fitness
  split
  · have h1 := (logistic_mem (p.phi_age * ((a.age : ℝ) - p.a_half))).1
    have h2 := (logistic_mem (-p.phi_weight * (a.weight - p.w_half))).1
    positivity
  · exact le_refl 0

/-- Fitness is strictly below 1. -/
theorem fitness_lt_one (p : AnimalParams) (a : Animal) : fitness p a < 1 := by
  unfold fitness
  split
  · have h1 := logistic_mem (p.phi_age * ((a.age : ℝ) - p.a_half))
    have h2 := logistic_mem (-p.phi_weight * (a.weight - p.w_half))
    nlinarith [h1.1, h1.2, h2.1, h2.2]
  · norm_num

/-- C3: for every animal, of any age and weight, fitness lies in [0,1];
and whenever weight ≤ 0 the fitness equals exactly 0, for any age. -/
theorem claim_C3_fitness_range (p : AnimalParams) (a : Animal) :
    0 ≤ fitness p a ∧ fitness p a ≤ 1 ∧ (a.weight ≤ 0 → fitness p a = 0) :=
  ⟨fitness_nonneg p a, le_of_lt (fitness_lt_one p a), fitness_of_nonpos_weight p a⟩

/-- Witness for C3 at a concrete animal of non-positive weight. -/
theorem claim_C3_witness :
    fitness herbivoreParams ⟨0, 3, -1⟩ = 0 ∧ 0 ≤ fitness herbivoreParams ⟨0, 3, -1⟩ :=
  ⟨(claim_C3_fitness_range herbivoreParams ⟨0, 3, -1⟩).2.2 (by norm_num),
   (claim_C3_fitness_range herbivoreParams ⟨0, 3, -1⟩).1⟩

/-- C4 counterexample: calling `calculate_procreation_probability` with
`N = 1` does consume one uniform draw, so the generator state is changed
by the call, contrary to the claim. -/
theorem claim_C4_counterexample :
    (calculate_procreation_probability herbivoreParams ⟨0, 5, 20⟩ 1 zeroRng).2 ≠ zeroRng := by
  intro h
  have : (calculate_procreation_probability herbivoreParams ⟨0, 5, 20⟩ 1 zeroRng).2.iF
      = zeroRng.iF := congrArg Rng.iF h
  simp [calculate_procreation_probability, prob_true_or_false, Rng.nextFloat, zeroRng] at this

/-- C4 (amended): with same-species count `N ≤ 1`, a non-negative `γ` and
a uniform draw in `[0,1)`, the call returns `false` deterministically, the
clamped probability being exactly 0 or negative; one uniform value is
drawn and discarded, so the generator advances by exactly one draw. -/
theorem claim_C4_n_le_one_false (p : AnimalParams) (a : Animal) (N : ℕ) (r : Rng)
    (hN : N ≤ 1) (hγ : 0 ≤ p.gamma) (hu : 0 ≤ r.floats r.iF) :
    (calculate_procreation_probability p a N r).1 = false ∧
      (calculate_procreation_probability p a N r).2 = { r with iF := r.iF + 1 } := by
  have hfit := fitness_nonneg p a
  have hNn : (N : ℝ) - 1 ≤ 0 := by
    have : (N : ℝ) ≤ 1 := by exact_mod_cast hN
    linarith
  have hpp : p.gamma * fitness p a * ((N : ℝ) - 1) ≤ 0 :=
    mul_nonpos_of_nonneg_of_nonpos (mul_nonneg hγ hfit) hNn
  simp only [calculate_procreation_probability, prob_true_or_false]
  rw [if_neg (by linarith : ¬ p.gamma * fitness p a * ((N : ℝ) - 1) > 1)]
  rw [if_neg (by linarith : ¬ r.floats r.iF < p.gamma * fitness p a * ((N : ℝ) - 1))]
  exact ⟨rfl, trivial⟩

/-- Witness for C4's amended theorem at `N = 1` with the zero generator. -/
theorem claim_C4_witness :
    (calculate_procreation_probability herbivoreParams ⟨0, 5, 20⟩ 1 zeroRng).1 = false :=
  (claim_C4_n_le_one_false herbivoreParams ⟨0, 5, 20⟩ 1 zeroRng
    (by norm_num) (by norm_num [herbivoreParams]) (by norm_num [zeroRng])).1

/-- C6: with Δ the fitness disparity of attacker over prey: a
non-positive Δ never kills and leaves the generator untouched, a Δ at or
above `DeltaPhiMax` kills surely without a draw, and an intermediate Δ is
decided by exactly one uniform draw against `Δ / DeltaPhiMax`. -/
theorem claim_C6_predation (p : AnimalParams) (c h : Animal) (r : Rng) :
    (fitness p c - fitness p h ≤ 0 → killing_probability p c h r = (false, r)) ∧
    (0 < fitness p c - fitness p h → fitness p c - fitness p h < p.DeltaPhiMax →
      killing_probability p c h r =
        (if r.floats r.iF < (fitness p c - fitness p h) / p.DeltaPhiMax then true else false,
          { r with iF := r.iF + 1 })) ∧
    (0 < fitness p c - fitness p h → p.DeltaPhiMax ≤ fitness p c - fitness p h →
      killing_probability p c h r = (true, r)) := by
  refine ⟨fun hle => ?_, fun hpos hlt => ?_, fun hpos hge => ?_⟩
  · simp only [killing_probability]
    rw [if_pos hle]
  · simp only [killing_probability, prob_true_or_false]
    rw [if_neg (by linarith), if_pos hlt]
  · simp only [killing_probability]
    rw [if_neg (by linarith), if_neg (by linarith)]

/-- Witness for C6 at two animals of zero fitness (non-positive weights):
the disparity is 0, so the decision is deterministically false with the
generator unchanged. -/
theorem claim_C6_witness :
    killing_probability carnivoreParams ⟨0, 2, -1⟩ ⟨1, 4, 0⟩ zeroRng = (false, zeroRng) :=
  (claim_C6_predation carnivoreParams ⟨0, 2, -1⟩ ⟨1, 4, 0⟩ zeroRng).1 (by
    rw [fitness_of_nonpos_weight _ _ (by norm_num), fitness_of_nonpos_weight _ _ (by norm_num)]
    norm_num)

/-- C8: on a non-positive sampled birth weight no offspring is produced
and the mother is unchanged; on a positive sample with maternal weight at
least `ξ·birth_weight`, exactly that amount is subtracted and a newborn of
age 0 and that weight is produced; otherwise no offspring and the mother
is unchanged.  The gaussian stream advances by exactly one sample. -/
theorem claim_C8_birth (p : AnimalParams) (a : Animal) (fid : ℕ) (r : Rng) :
    (r.gaussians r.iG ≤ 0 →
      birth p a fid r = (a, none, { r with iG := r.iG + 1 })) ∧
    (0 < r.gaussians r.iG → p.xi * r.gaussians r.iG ≤ a.weight →
      birth p a fid r =
        ({ a with weight := a.weight - p.xi * r.gaussians r.iG },
          some ⟨fid, 0, r.gaussians r.iG⟩, { r with iG := r.iG + 1 })) ∧
    (0 < r.gaussians r.iG → a.weight < p.xi * r.gaussians r.iG →
      birth p a fid r = (a, none, { r with iG := r.iG + 1 })) := by
  refine ⟨fun hle => ?_, fun hpos hw => ?_, fun hpos hw => ?_⟩
  · simp only [birth]
    rw [if_neg (by linarith : ¬ r.gaussians r.iG > 0)]
  · simp only [birth]
    rw [if_pos (by linarith : r.gaussians r.iG > 0), if_pos hw]
  · simp only [birth]
    rw [if_pos (by linarith : r.gaussians r.iG > 0), if_neg (by linarith : ¬ p.xi * r.gaussians r.iG ≤ a.weight)]

/-- Witness for C8 at the zero generator: the sampled birth weight is 0,
not positive, so no offspring appears and the mother keeps her weight. -/
theorem claim_C8_witness :
    birth herbivoreParams ⟨0, 5, 20⟩ 7 zeroRng =
      (⟨0, 5, 20⟩, none, { zeroRng with iG := 1 }) :=
  (claim_C8_birth herbivoreParams ⟨0, 5, 20⟩ 7 zeroRng).1 (by norm_num [zeroRng])

/-- Parameter tables as string-keyed finite maps (the class-level `params`
dicts); `none` means the name is not a key of the table. -/
def ParamMap := String → Option ℚ

/-- Assignment `cls.params[param] = value`. -/
def updateParam (m : ParamMap) (k : String) (v : ℚ) : ParamMap :=
  fun q => if q = k then some v else m q

/-- `Animal.set_params` (`animal.py` lines 36-45) and the identical
`Landscape.set_params` (`landscape.py` lines 21-30): iterate the given
mapping in order; raise on the first negative value or unknown name.
Python mutates the class dict entry by entry, so the table accompanying
the error retains all assignments made before the offending entry. -/
def set_params : List (String × ℚ) → ParamMap → ParamMap × Option String
  | [], m => (m, none)
  | (k, v) :: rest, m =>
    if v < 0 then (m, some (k ++ " cannot be negative"))
    else if (m k).isNone then (m, some (k ++ " is not a recognized parameter"))
    else set_params rest (updateParam m k v)

/-- The herbivore parameter dict (`Herbivore.params`) as a map. -/
def herbivoreParamTable : ParamMap := fun k =>
  if k = "zeta" then some 3.5
  else if k = "a_half" then some 40
  else if k = "w_birth" then some 8
  else if k = "sigma_birth" then some 1.5
  else if k = "beta" then some 0.9
  else if k = "eta" then some 0.05
  else if k = "phi_age" then some 0.6
  else if k = "w_half" then some 10
  else if k = "phi_weight" then some 0.1
  else if k = "mu" then some 0.25
  else if k = "gamma" then some 0.2
  else if k = "xi" then some 1.2
  else if k = "omega" then some 0.4
  else if k = "F" then some 10
  else none

/-- An entry passes validation when its value is non-negative and its
name is a key of the table. -/
def validEntry (m : ParamMap) (kv : String × ℚ) : Bool :=
  !decide (kv.2 < 0) && (m kv.1).isSome

/-- Apply a list of assignments to a table in order. -/
def applyEntries (l : List (String × ℚ)) (m : ParamMap) : ParamMap :=
  l.foldl (fun acc kv => updateParam acc kv.1 kv.2) m

/-- The error raised for the first entry failing validation, if any. -/
def firstRejection (m : ParamMap) (l : List (String × ℚ)) : Option String :=
  match l.dropWhile (validEntry m) with
  | [] => none
  | (k, v) :: _ =>
    some (if v < 0 then k ++ " cannot be negative" else k ++ " is not a recognized parameter")

/-- Updating an existing key does not change which names are keys. -/
theorem isSome_updateParam (m : ParamMap) (k : String) (v : ℚ) (q : String)
    (h : (m k).isSome) : ((updateParam m k v) q).isSome = (m q).isSome := by
  unfold updateParam
  by_cases hq : q = k
  · subst hq
    simp [h]
  · simp [hq]

/-- Validation of an entry is unchanged by updating an existing key. -/
theorem validEntry_updateParam (m : ParamMap) (k : String) (v : ℚ)
    (h : (m k).isSome) : validEntry (updateParam m k v) = validEntry m := by
  funext kv
  unfold validEntry
  rw [isSome_updateParam m k v kv.1 h]

/-- C5 counterexample: the configuration call
`set_params {eta: 2, nonsense: 1}` on the herbivore table is rejected
(unknown name `nonsense`), yet `eta` no longer retains its prior value
`0.05`: the entry preceding the offending one was applied. -/
theorem claim_C5_counterexample :
    ((set_params [("eta", 2), ("nonsense", 1)] herbivoreParamTable).2).isSome = true ∧
    (set_params [("eta", 2), ("nonsense", 1)] herbivoreParamTable).1 "eta" = some 2 ∧
    herbivoreParamTable "eta" = some 0.05 := by
  refine ⟨by decide, by decide, by simp [herbivoreParamTable]⟩

/-- C5 (amended): a configuration call with an unknown name or negative
value is rejected at the first offending entry, but entries preceding it
in the mapping have already been applied; the table is unchanged only
when the offending entry comes first.  Formally, `set_params` applies
exactly the longest valid prefix of the mapping and reports the first
rejected entry. -/
theorem claim_C5_partial_application (l : List (String × ℚ)) (m : ParamMap) :
    set_params l m = (applyEntries (l.takeWhile (validEntry m)) m, firstRejection m l) := by
  induction l generalizing m with
  | nil => rfl
  | cons kv rest ih =>
    obtain ⟨k, v⟩ := kv
    by_cases hneg : v < 0
    · have hval : validEntry m (k, v) = false := by
        unfold validEntry
        simp [hneg]
      simp only [set_params, if_pos hneg, firstRejection, List.dropWhile_cons, hval,
        List.takeWhile_cons, Bool.false_eq_true, if_false, if_pos hneg]
      rfl
    · by_cases hkey : (m k).isNone
      · have hval : validEntry m (k, v) = false := by
          unfold validEntry
          simp [hneg, Option.isNone_iff_eq_none.mp hkey]
        simp only [set_params, if_neg hneg, if_pos hkey, firstRejection, List.dropWhile_cons,
          hval, List.takeWhile_cons, Bool.false_eq_true, if_false, if_neg hneg]
        rfl
      · have hsome : (m k).isSome = true := by
          cases hmk : m k with
          | none => exact absurd (by simp [hmk]) hkey
          | some val => simp
        have hval : validEntry m (k, v) = true := by
          unfold validEntry
          simp [hneg, hsome]
        have hcongr := validEntry_updateParam m k v hsome
        simp only [set_params, if_neg hneg, if_neg hkey, ih (updateParam m k v),
          hcongr, List.takeWhile_cons, hval, if_true, firstRejection, List.dropWhile_cons]
        rfl

/-- `Landscape._sort_fitness` (`landscape.py` lines 36-48) with the default
`descending=True`: Python's stable `sorted` with key `fitness` and
`reverse=True`.  A stable sort for a total preorder is unique, so the
stable `insertionSort` computes the same list. -/
noncomputable def sort_fitness (p : AnimalParams) (l : List Animal) : List Animal :=
  l.insertionSort (fun a b => fitness p b ≤ fitness p a)

/-- `Animal.eat` (`animal.py` lines 189-201): weight increases by `β`
times the amount eaten. -/
def eat (p : AnimalParams) (a : Animal) (feed : ℝ) : Animal :=
  { a with weight := a.weight + p.beta * feed }

/-- The `while` loop of `Landscape.feed_herbivores` (`landscape.py` lines
82-91) over the fitness-sorted list: while fodder remains and animals are
left, the next animal eats its appetite if that much fodder remains and
otherwise all remaining fodder.  Returns the remaining fodder and, in
processing order, each fed animal (updated by `eat`) with the amount it
ate. -/
noncomputable def feed_loop (p : AnimalParams) (fodder : ℝ) :
    List Animal → ℝ × List (Animal × ℝ)
  | [] => (fodder, [])
  | h :: rest =>
    if fodder > 0 then
      let F := if 0 ≤ fodder - p.F then p.F else fodder
      let res := feed_loop p (fodder - F) rest
      (res.1, (eat p h F, F) :: res.2)
    else (fodder, [])

/-- `Landscape.feed_herbivores` (`landscape.py` lines 77-91): sort the
herbivores by descending fitness, then run the feeding loop on the
available fodder (which `set_fodder`, `landscape.py` lines 32-34, has just
reset to the terrain's `f_max`). -/
noncomputable def feed_herbivores (p : AnimalParams) (fodder : ℝ) (herbs : List Animal) :
    ℝ × List (Animal × ℝ) :=
  feed_loop p fodder (sort_fitness p herbs)

/-- Specification predicate: each successive amount equals the minimum of
the appetite constant and the fodder remaining before that turn. -/
def eatenAmountsOk (F0 : ℝ) : ℝ → List ℝ → Prop
  | _, [] => True
  | fodder, x :: rest => x = min F0 fodder ∧ eatenAmountsOk F0 (fodder - x) rest

/-- Loop invariant of the feeding loop: remaining fodder is non-negative,
consumption plus remainder accounts exactly for the initial fodder, the
fed animals are an initial segment of the processing list, each eats the
minimum of appetite and remaining fodder, and the loop stops only on an
exhausted list or exhausted fodder. -/
theorem feed_loop_spec (p : AnimalParams) (l : List Animal) :
    ∀ fodder : ℝ, 0 ≤ fodder →
      0 ≤ (feed_loop p fodder l).1 ∧
      (feed_loop p fodder l).1 + ((feed_loop p fodder l).2.map Prod.snd).sum = fodder ∧
      (feed_loop p fodder l).2.map (fun q => q.1.id)
        = (l.map Animal.id).take (feed_loop p fodder l).2.length ∧
      eatenAmountsOk p.F fodder ((feed_loop p fodder l).2.map Prod.snd) ∧
      ((feed_loop p fodder l).2.length = l.length ∨ (feed_loop p fodder l).1 = 0) := by
  induction l with
  | nil =>
    intro fodder hf
    refine ⟨hf, by simp [feed_loop], by simp [feed_loop], ?_, by simp [feed_loop]⟩
    simp only [feed_loop, List.map_nil]
    trivial
  | cons h rest ih =>
    intro fodder hf
    by_cases hpos : fodder > 0
    · have hFmin : (if 0 ≤ fodder - p.F then p.F else fodder) = min p.F fodder := by
        by_cases hc : 0 ≤ fodder - p.F
        · rw [if_pos hc, min_eq_left (by linarith)]
        · rw [if_neg hc, min_eq_right (by linarith)]
      have hFle : (if 0 ≤ fodder - p.F then p.F else fodder) ≤ fodder := by
        by_cases hc : 0 ≤ fodder - p.F
        · rw [if_pos hc]; linarith
        · rw [if_neg hc]
      obtain ⟨ih1, ih2, ih3, ih4, ih5⟩ :=
        ih (fodder - (if 0 ≤ fodder - p.F then p.F else fodder)) (by linarith)
      simp only [feed_loop, if_pos hpos]
      refine ⟨ih1, by rw [List.map_cons, List.sum_cons]; linarith, ?_, ?_, ?_⟩
      · simp only [List.map_cons, List.length_cons, List.take_succ_cons, ih3, eat]
      · rw [List.map_cons]
        exact ⟨hFmin, by
          rw [hFmin] at ih4
          convert ih4 using 2
          rw [hFmin]⟩
      · rcases ih5 with h5 | h5
        · left
          simp only [List.length_cons, h5]
        · right
          exact h5
    · have hzero : fodder = 0 := le_antisymm (not_lt.mp hpos) hf
      simp only [feed_loop, if_neg hpos]
      refine ⟨hf, by simp, by simp, ?_, Or.inr hzero⟩
      simp only [List.map_nil]
      trivial

/-- Sorting by fitness returns a permutation of the cell's herbivores. -/
theorem sort_fitness_perm (p : AnimalParams) (l : List Animal) :
    (sort_fitness p l).Perm l :=
  List.perm_insertionSort _ l

/-- The fitness-sorted list is descending in fitness. -/
theorem sort_fitness_sorted (p : AnimalParams) (l : List Animal) :
    List.Sorted (fun a b => fitness p b ≤ fitness p a) (sort_fitness p l) := by
  haveI : IsTotal Animal (fun a b => fitness p b ≤ fitness p a) := ⟨fun a b => le_total _ _⟩
  haveI : IsTrans Animal (fun a b => fitness p b ≤ fitness p a) :=
    ⟨fun a b c hab hbc => le_trans hbc hab⟩
  exact List.sorted_insertionSort _ l

/-- Stability of the fitness sort: a pair already ordered by the sort
relation (in particular a fitness tie) keeps its original relative
order. -/
theorem sort_fitness_stable (p : AnimalParams) (l : List Animal) (a b : Animal)
    (hsub : List.Sublist [a, b] l) (hab : fitness p b ≤ fitness p a) :
    List.Sublist [a, b] (sort_fitness p l) :=
  List.pair_sublist_insertionSort hab hsub

/-- C7: in one feeding stage the herbivores eat in descending fitness
order (a stable sort of the resident list, ties keeping original order),
the fed animals form an initial segment of that order and each distinct
animal eats at most once, each eats the minimum of its appetite and the
remaining fodder, feeding stops only when fodder is exhausted or everyone
had a turn, and total consumption never exceeds the terrain's fodder
maximum for the cycle. -/
theorem claim_C7_feeding (p : AnimalParams) (fmax : ℝ) (herbs : List Animal)
    (hf : 0 ≤ fmax) :
    (((feed_herbivores p fmax herbs).2.map Prod.snd).sum ≤ fmax) ∧
    0 ≤ (feed_herbivores p fmax herbs).1 ∧
    (feed_herbivores p fmax herbs).1
      + ((feed_herbivores p fmax herbs).2.map Prod.snd).sum = fmax ∧
    (sort_fitness p herbs).Perm herbs ∧
    List.Sorted (fun a b => fitness p b ≤ fitness p a) (sort_fitness p herbs) ∧
    (∀ a b, List.Sublist [a, b] herbs → fitness p b ≤ fitness p a →
      List.Sublist [a, b] (sort_fitness p herbs)) ∧
    ((feed_herbivores p fmax herbs).2.map (fun q => q.1.id)
      = ((sort_fitness p herbs).map Animal.id).take (feed_herbivores p fmax herbs).2.length) ∧
    eatenAmountsOk p.F fmax ((feed_herbivores p fmax herbs).2.map Prod.snd) ∧
    ((feed_herbivores p fmax herbs).2.length = herbs.length
      ∨ (feed_herbivores p fmax herbs).1 = 0) ∧
    ((herbs.map Animal.id).Nodup →
      ((feed_herbivores p fmax herbs).2.map (fun q => q.1.id)).Nodup) := by
  obtain ⟨h1, h2, h3, h4, h5⟩ := feed_loop_spec p (sort_fitness p herbs) fmax hf
  have hperm := sort_fitness_perm p herbs
  have hlen : (sort_fitness p herbs).length = herbs.length := hperm.length_eq
  refine ⟨by
      show ((feed_loop p fmax (sort_fitness p herbs)).2.map Prod.snd).sum ≤ fmax
      linarith,
    h1, h2, hperm, sort_fitness_sorted p herbs, sort_fitness_stable p herbs, h3, h4, ?_, ?_⟩
  · rcases h5 with h5 | h5
    · exact Or.inl (h5.trans hlen)
    · exact Or.inr h5
  · intro hnd
    have hnds : ((sort_fitness p herbs).map Animal.id).Nodup :=
      (hperm.map Animal.id).nodup_iff.mpr hnd
    show ((feed_loop p fmax (sort_fitness p herbs)).2.map (fun q => q.1.id)).Nodup
    rw [h3]
    exact hnds.sublist (List.take_sublist _ _)

/-- Witness for C7 at a lowland cell (`f_max = 800`) holding one
herbivore. -/
theorem claim_C7_witness :
    ((feed_herbivores herbivoreParams 800 [⟨0, 5, 20⟩]).2.map Prod.snd).sum ≤ 800 :=
  (claim_C7_feeding herbivoreParams 800 [⟨0, 5, 20⟩] (by norm_num)).1

/-- `Animal.update_life_status` (`animal.py` lines 116-123): one uniform
draw against `ω · (1 − fitness)`; `true` means the animal dies. -/
noncomputable def update_life_status (p : AnimalParams) (a : Animal) (r : Rng) : Bool × Rng :=
  prob_true_or_false (p.omega * (1 - fitness p a)) r

/-- The traversal of one resident list inside
`Landscape.update_life_status_of_animals` (`landscape.py` lines 196-202).
Python iterates `itertools.chain(self.herb_list, self.carn_list)` while
`remove_animal_if_dead` (lines 50-60) removes dead animals from the very
list being iterated.  The list iterator keeps a position index that has
already advanced past the yielded element, so removing that element shifts
the following element into an index the iterator will not visit again.
`k` is the iterator's next position in the current list. -/
noncomputable def death_scan (p : AnimalParams) (l : List Animal) (k : ℕ) (r : Rng) :
    List Animal × Rng :=
  if hk : k < l.length then
    let a := l.get ⟨k, hk⟩
    let res := update_life_status p a r
    if res.1 then death_scan p (l.eraseIdx k) (k + 1) res.2
    else death_scan p l (k + 1) res.2
  else (l, r)
termination_by l.length - k
decreasing_by
  · simp only [List.length_eraseIdx]
    rw [if_pos hk]
    omega
  · omega

/-- `Landscape.update_life_status_of_animals` (`landscape.py` lines
196-202): scan the herbivore list, then the carnivore list, with the
respective species parameters. -/
noncomputable def update_life_status_of_animals (ph pc : AnimalParams)
    (herb carn : List Animal) (r : Rng) : (List Animal × List Animal) × Rng :=
  let resH := death_scan ph herb 0 r
  let resC := death_scan pc carn 0 resH.2
  ((resH.1, resC.1), resC.2)

/-- Unfolding step of the scan when the current animal dies. -/
theorem death_scan_dead (p : AnimalParams) (l : List Animal) (k : ℕ) (r : Rng)
    (hk : k < l.length)
    (hdead : r.floats r.iF < p.omega * (1 - fitness p (l.get ⟨k, hk⟩))) :
    death_scan p l k r = death_scan p (l.eraseIdx k) (k + 1) { r with iF := r.iF + 1 } := by
  rw [death_scan]
  rw [dif_pos hk]
  simp only [update_life_status, prob_true_or_false]
  rw [if_pos hdead]
  simp

/-- Unfolding step of the scan at the end of the list. -/
theorem death_scan_stop (p : AnimalParams) (l : List Animal) (k : ℕ) (r : Rng)
    (hk : ¬ k < l.length) : death_scan p l k r = (l, r) := by
  rw [death_scan]
  rw [dif_neg hk]

/-- A healthy animal has strictly positive death probability under a
positive `ω`, so the zero draw kills it. -/
theorem zero_draw_kills (p : AnimalParams) (a : Animal) (hw : 0 < p.omega) :
    (0 : ℝ) < p.omega * (1 - fitness p a) :=
  mul_pos hw (by linarith [fitness_lt_one p a])

/-- C2 exhibits the death-stage iteration bug at a concrete cell: two
herbivores reside in the cell and the uniform stream is identically 0, so
every evaluated animal dies.  The first animal is evaluated, dies and is
removed, which shifts the second animal past the iterator: the stage ends
with the second animal still in the cell and only one uniform value
consumed for two residents, although evaluating the second animal with
the same stream would also kill it.  The claim that every resident is
evaluated exactly once therefore fails on the code. -/
theorem claim_C2_death_skip :
    (update_life_status_of_animals herbivoreParams carnivoreParams
        [⟨0, 5, 20⟩, ⟨1, 5, 20⟩] [] zeroRng).1.1 = [⟨1, 5, 20⟩] ∧
    (update_life_status_of_animals herbivoreParams carnivoreParams
        [⟨0, 5, 20⟩, ⟨1, 5, 20⟩] [] zeroRng).2.iF = 1 ∧
    (update_life_status herbivoreParams ⟨1, 5, 20⟩ { zeroRng with iF := 1 }).1 = true := by
  have homega : (0 : ℝ) < herbivoreParams.omega := by norm_num [herbivoreParams]
  have hstep1 : death_scan herbivoreParams [⟨0, 5, 20⟩, ⟨1, 5, 20⟩] 0 zeroRng
      = death_scan herbivoreParams [⟨1, 5, 20⟩] 1 { zeroRng with iF := 1 } := by
    have := death_scan_dead herbivoreParams [⟨0, 5, 20⟩, ⟨1, 5, 20⟩] 0 zeroRng
      (by norm_num)
      (by simpa [zeroRng] using zero_draw_kills herbivoreParams ⟨0, 5, 20⟩ homega)
    simpa [zeroRng, List.eraseIdx] using this
  have hstep2 : death_scan herbivoreParams [⟨1, 5, 20⟩] 1 { zeroRng with iF := 1 }
      = ([⟨1, 5, 20⟩], { zeroRng with iF := 1 }) :=
    death_scan_stop _ _ _ _ (by norm_num)
  have hcarn : death_scan carnivoreParams [] 0 { zeroRng with iF := 1 }
      = ([], { zeroRng with iF := 1 }) :=
    death_scan_stop _ _ _ _ (by norm_num)
  refine ⟨?_, ?_, ?_⟩
  · simp only [update_life_status_of_animals, hstep1, hstep2, hcarn]
  · simp only [update_life_status_of_animals, hstep1, hstep2, hcarn]
  · simp only [update_life_status, prob_true_or_false]
    rw [if_pos (by simpa [zeroRng] using zero_draw_kills herbivoreParams ⟨1, 5, 20⟩ homega)]

/-- Entry of a resident list during the migration stage: either an animal
object or the string sentinel `","` that `migrate_herbivores` /
`migrate_carnivores` splice into a destination list to separate residents
from animals that arrived during the same stage sweep. -/
inductive Entry where
  | sep : Entry
  | animal : Animal → Entry

/-- Test for the sentinel (Python `e == ","`; the string never compares
equal to an animal object). -/
def Entry.isSep : Entry → Bool
  | .sep => true
  | .animal _ => false

/-- Extract the animal of an entry. -/
def Entry.toAnimal : Entry → Option Animal
  | .sep => none
  | .animal a => some a

/-- Python `list.remove(obj)` for an animal compares by object identity;
this predicate finds the entry holding the object with the given id. -/
def entryHasId (i : ℕ) : Entry → Bool
  | .sep => false
  | .animal a => a.id == i

/-- The two species, selecting which of a cell's lists an operation acts
on (`migrate_herbivores` versus `migrate_carnivores`). -/
inductive Species where
  | herb : Species
  | carn : Species

/-- One grid cell (`Landscape` instance) as relevant to migration:
its two resident lists, its accessibility flag, and its four neighbour
references in the order up, right, down, left of `direction_dict`
(`island.py` line 12); `none` models a `None` neighbour at the grid
edge. -/
structure Cell where
  herb_list : List Entry
  carn_list : List Entry
  accessability : Bool
  adjacent_cells : Fin 4 → Option ℕ

instance : Inhabited Cell :=
  ⟨⟨[], [], false, fun _ => none⟩⟩

/-- Select a cell's list for a species. -/
def Cell.getList (c : Cell) : Species → List Entry
  | .herb => c.herb_list
  | .carn => c.carn_list

/-- Replace a cell's list for a species. -/
def Cell.setList (c : Cell) : Species → List Entry → Cell
  | .herb, l => { c with herb_list := l }
  | .carn, l => { c with carn_list := l }

/-- The island's migration-stage state: the cell array (the dict of
`island.py`, in row-major construction order), the random generator, and
ghost logs recording, per call, the id of the animal for which
`migrate_or_not` / `migration_direction` was evaluated and the id of each
animal that transferred cells. -/
structure MigState where
  cells : List Cell
  rng : Rng
  decLog : List ℕ
  dirLog : List ℕ
  movLog : List ℕ

/-- Look up a cell by index (cell references become indices in the
embedding). -/
def getCell (cs : List Cell) (i : ℕ) : Cell :=
  cs.getD i default

/-- Write back one species list of one cell. -/
def setCellList (cs : List Cell) (i : ℕ) (sp : Species) (l : List Entry) : List Cell :=
  cs.set i ((getCell cs i).setList sp l)

/-- `Animal.migrate_or_not` (`animal.py` lines 166-177): one uniform draw
against `μ · fitness`. -/
noncomputable def migrate_or_not (p : AnimalParams) (a : Animal) (r : Rng) : Bool × Rng :=
  prob_true_or_false (p.mu * fitness p a) r

/-- `Animal.migration_direction` (`animal.py` lines 179-187): one uniform
choice among the four directions. -/
def migration_direction (r : Rng) : Fin 4 × Rng :=
  r.nextDir

/-- The body of the migration loop for one animal of the snapshot
(`landscape.py` lines 151-159 resp. 177-185): decide migration; if
migrating, draw a direction, and if the destination is accessible append
the sentinel to the destination when moving right or down
(`0 < direction < 3`) and no sentinel is present there yet, append the
animal to the destination list and remove it from the source list.  A
`None` neighbour would raise in Python; on a water-bounded island every
accessible cell has four neighbours, so that branch is unreachable for
processed cells and is modelled as a no-op.  `transferCells` is the
ownership transfer itself (`landscape.py` lines 156-159): sentinel
append when needed, destination append, then `list.remove` at the
source. -/
def withSepList (l : List Entry) (d : Fin 4) : List Entry :=
  if (0 < (d : ℕ) ∧ (d : ℕ) < 3) ∧ l.any Entry.isSep = false
  then l ++ [Entry.sep] else l

noncomputable def transferCells (cs : List Cell) (i j : ℕ) (sp : Species) (d : Fin 4)
    (a : Animal) : List Cell :=
  let cs3 := setCellList cs j sp (withSepList ((getCell cs j).getList sp) d ++ [Entry.animal a])
  setCellList cs3 i sp (((getCell cs3 i).getList sp).eraseP (entryHasId a.id))

noncomputable def migrate_one (p : AnimalParams) (sp : Species) (i : ℕ) (a : Animal)
    (s : MigState) : MigState :=
  let mres := migrate_or_not p a s.rng
  let s1 : MigState := { s with rng := mres.2, decLog := s.decLog ++ [a.id] }
  if mres.1 then
    let dres := migration_direction s1.rng
    let d := dres.1
    let s2 : MigState := { s1 with rng := dres.2, dirLog := s1.dirLog ++ [a.id] }
    match (getCell s2.cells i).adjacent_cells d with
    | none => s2
    | some j =>
      if (getCell s2.cells j).accessability then
        { s2 with cells := transferCells s2.cells i j sp d a,
                  movLog := s2.movLog ++ [a.id] }
      else s2
  else s1

/-- The sentinel cleanup at the end of `migrate_herbivores` /
`migrate_carnivores` (`landscape.py` lines 161-162 and 186-187):
`while "," in list: list.remove(",")` removes every sentinel from the
cell's own list. -/
noncomputable def cleanupCell (i : ℕ) (sp : Species) (s : MigState) : MigState :=
  { s with
    cells := setCellList s.cells i sp
      (((getCell s.cells i).getList sp).filter (fun e => !e.isSep)) }

/-- `Landscape.migrate_herbivores` / `migrate_carnivores` (`landscape.py`
lines 142-162 and 164-187) for cell `i`: take the slice of the list up to
the first sentinel (`index = list.index(",")`), run the loop body for each
animal of that fixed slice, then remove every sentinel from the cell's
list. -/
noncomputable def migrate_species (p : AnimalParams) (sp : Species) (i : ℕ)
    (s : MigState) : MigState :=
  cleanupCell i sp
    (((((getCell s.cells i).getList sp).takeWhile
        (fun e => !e.isSep)).filterMap Entry.toAnimal).foldl
      (fun st a => migrate_one p sp i a st) s)

/-- `island._get_cells` (`island.py` lines 115-124): the indices of the
accessible cells, in construction (row-major) order. -/
def accessible_indices (cs : List Cell) : List ℕ :=
  (List.range cs.length).filter (fun i => (getCell cs i).accessability)

/-- `island._migration_stage` (`island.py` lines 262-271): for every
accessible cell in order, migrate its herbivores and then its
carnivores. -/
noncomputable def migration_stage (ph pc : AnimalParams) (s : MigState) : MigState :=
  (accessible_indices s.cells).foldl
    (fun st i => migrate_species pc .carn i (migrate_species ph .herb i st)) s

/-- The ids of the animals in a resident list (sentinels contribute
nothing). -/
def idsOfList (l : List Entry) : List ℕ :=
  l.filterMap (fun e => (e.toAnimal).map Animal.id)

/-- All ids of a cell, herbivores then carnivores. -/
def cellIds (c : Cell) : List ℕ :=
  idsOfList c.herb_list ++ idsOfList c.carn_list

/-- All ids on the island in list order. -/
def islandIds (cs : List Cell) : List ℕ :=
  (cs.map cellIds).flatten

/-- The prefix of a list before its first sentinel: the slice the
migration loop iterates. -/
def preSep (l : List Entry) : List Entry :=
  l.takeWhile (fun e => !e.isSep)

/-- A list with no sentinel in it. -/
def sepFreeList (l : List Entry) : Bool :=
  l.all (fun e => !e.isSep)

/-- No sentinel anywhere on the island. -/
def noSeps (cs : List Cell) : Bool :=
  cs.all (fun c => sepFreeList c.herb_list && sepFreeList c.carn_list)

/-- Row-major adjacency soundness for one accessible cell and direction:
the neighbour exists and is in range, and when it is accessible it comes
earlier in construction order for up/left (directions 0 and 3) and later
for right/down (directions 1 and 2).  `_create_island` /
`_insert_adjacent_cells` (`island.py` lines 17-53) establish this for
every water-bounded rectangular layout. -/
def adjOk (cs : List Cell) (i : ℕ) (d : Fin 4) : Bool :=
  match (getCell cs i).adjacent_cells d with
  | none => false
  | some j =>
    decide (j < cs.length) && decide (j ≠ i) &&
    (if (getCell cs j).accessability then
      (if (d : ℕ) = 1 ∨ (d : ℕ) = 2 then decide (i < j) else decide (j < i))
    else true)

/-- Row-major adjacency soundness for the whole island. -/
def rowMajor (cs : List Cell) : Bool :=
  (accessible_indices cs).all (fun i => (List.finRange 4).all (adjOk cs i))

/-- Decidable equality of species. -/
instance : DecidableEq Species := fun a b => by
  cases a <;> cases b <;> first | exact isTrue rfl | exact isFalse (by intro h; cases h)

/-- Setting a list leaves a cell's accessibility unchanged. -/
theorem accessability_setList (c : Cell) (sp : Species) (l : List Entry) :
    (c.setList sp l).accessability = c.accessability := by
  cases sp <;> rfl

/-- Setting a list leaves a cell's neighbour references unchanged. -/
theorem adjacent_setList (c : Cell) (sp : Species) (l : List Entry) :
    (c.setList sp l).adjacent_cells = c.adjacent_cells := by
  cases sp <;> rfl

/-- Reading the species list just written. -/
theorem getList_setList_same (c : Cell) (sp : Species) (l : List Entry) :
    (c.setList sp l).getList sp = l := by
  cases sp <;> rfl

/-- Reading the other species list after a write. -/
theorem getList_setList_other (c : Cell) (sp sp' : Species) (l : List Entry)
    (h : sp' ≠ sp) : (c.setList sp l).getList sp' = c.getList sp' := by
  cases sp <;> cases sp' <;> first | exact absurd rfl h | rfl

/-- Writing a cell list preserves the number of cells. -/
theorem length_setCellList (cs : List Cell) (i : ℕ) (sp : Species) (l : List Entry) :
    (setCellList cs i sp l).length = cs.length :=
  List.length_set cs i _

/-- Cells other than the written one are untouched. -/
theorem getCell_setCellList_ne (cs : List Cell) (i : ℕ) (sp : Species) (l : List Entry)
    (k : ℕ) (h : k ≠ i) : getCell (setCellList cs i sp l) k = getCell cs k := by
  unfold getCell setCellList
  simp [List.getD, List.getElem?_set_ne (Ne.symm h)]

/-- The written cell carries the new list. -/
theorem getCell_setCellList_self (cs : List Cell) (i : ℕ) (sp : Species) (l : List Entry)
    (h : i < cs.length) :
    getCell (setCellList cs i sp l) i = (getCell cs i).setList sp l := by
  show (setCellList cs i sp l).getD i default = (getCell cs i).setList sp l
  unfold setCellList
  rw [List.getD_eq_getElem _ _ (by simpa using h), List.getElem_set_self]

/-- Ids distribute over list append. -/
theorem idsOfList_append (l₁ l₂ : List Entry) :
    idsOfList (l₁ ++ l₂) = idsOfList l₁ ++ idsOfList l₂ :=
  List.filterMap_append _ _ _

/-- A sentinel contributes no id. -/
theorem idsOfList_sep : idsOfList [Entry.sep] = [] := rfl

/-- An animal entry contributes its id. -/
theorem idsOfList_animal (a : Animal) : idsOfList [Entry.animal a] = [a.id] := rfl

/-- Removing the first entry holding a given id removes exactly that id
from the id list. -/
theorem idsOfList_eraseP (x : ℕ) (l : List Entry) :
    idsOfList (l.eraseP (entryHasId x)) = (idsOfList l).erase x := by
  induction l with
  | nil => rfl
  | cons e rest ih =>
    cases e with
    | sep =>
      simp only [List.eraseP_cons, entryHasId]
      show idsOfList (Entry.sep :: rest.eraseP (entryHasId x)) = (idsOfList (Entry.sep :: rest)).erase x
      have h1 : idsOfList (Entry.sep :: rest.eraseP (entryHasId x))
          = idsOfList (rest.eraseP (entryHasId x)) := rfl
      have h2 : idsOfList (Entry.sep :: rest) = idsOfList rest := rfl
      rw [h1, h2, ih]
    | animal a =>
      by_cases hx : a.id = x
      · subst hx
        simp only [List.eraseP_cons, entryHasId, beq_self_eq_true, cond_true]
        have h2 : idsOfList (Entry.animal a :: rest) = a.id :: idsOfList rest := rfl
        rw [h2, List.erase_cons_head]
      · have hb : (a.id == x) = false := beq_eq_false_iff_ne.mpr hx
        simp only [List.eraseP_cons, entryHasId, hb, cond_false]
        have h1 : idsOfList (Entry.animal a :: rest.eraseP (entryHasId x))
            = a.id :: idsOfList (rest.eraseP (entryHasId x)) := rfl
        have h2 : idsOfList (Entry.animal a :: rest) = a.id :: idsOfList rest := rfl
        rw [h1, h2, ih, List.erase_cons_tail]
        simp [hx]

/-- Sum of a list after replacing one element, in subtraction-free form. -/
theorem sum_set_add (l : List ℕ) (j b : ℕ) (hj : j < l.length) :
    (l.set j b).sum + l.get ⟨j, hj⟩ = l.sum + b := by
  induction l generalizing j with
  | nil => simp at hj
  | cons h t ih =>
    cases j with
    | zero =>
      simp only [List.set, List.sum_cons, List.get]
      omega
    | succ k =>
      simp only [List.set, List.sum_cons, List.get]
      have := ih k (by simpa using hj)
      omega

/-- Replacing one species list changes a cell's id counts by exactly the
difference between the old and new list counts. -/
theorem count_cellIds_setList (c : Cell) (sp : Species) (l : List Entry) (x : ℕ) :
    (cellIds (c.setList sp l)).count x + (idsOfList (c.getList sp)).count x
      = (cellIds c).count x + (idsOfList l).count x := by
  cases sp <;>
    simp only [cellIds, Cell.setList, Cell.getList, List.count_append] <;>
    omega

/-- Replacing one cell's species list changes the island id counts by
exactly the difference between the old and new list counts. -/
theorem count_islandIds_setCellList (cs : List Cell) (i : ℕ) (sp : Species)
    (l : List Entry) (x : ℕ) (h : i < cs.length) :
    (islandIds (setCellList cs i sp l)).count x
        + (idsOfList ((getCell cs i).getList sp)).count x
      = (islandIds cs).count x + (idsOfList l).count x := by
  unfold islandIds
  rw [List.count_flatten, List.count_flatten]
  have hset : setCellList cs i sp l = cs.set i ((getCell cs i).setList sp l) := rfl
  rw [hset, List.map_set, List.map_set]
  have hj : i < ((cs.map cellIds).map (List.count x)).length := by simpa using h
  have hsum := sum_set_add ((cs.map cellIds).map (List.count x)) i
    ((cellIds ((getCell cs i).setList sp l)).count x) hj
  have hget : ((cs.map cellIds).map (List.count x)).get ⟨i, hj⟩
      = (cellIds (getCell cs i)).count x := by
    simp only [List.get_eq_getElem, List.getElem_map]
    congr 1
    show cellIds cs[i] = cellIds (getCell cs i)
    congr 1
    unfold getCell
    rw [List.getD_eq_getElem _ _ h]
  rw [hget] at hsum
  have hcell := count_cellIds_setList (getCell cs i) sp l x
  omega

/-- Case analysis of the loop body for one animal: it either only decides
(no migration), or decides and draws a direction without transfer (no
neighbour or inaccessible destination), or transfers the animal to an
accessible neighbour `j`; the ghost logs record exactly the evaluations
made. -/
theorem migrate_one_cases (p : AnimalParams) (sp : Species) (i : ℕ) (a : Animal)
    (s : MigState) :
    (∃ r', migrate_one p sp i a s
        = ⟨s.cells, r', s.decLog ++ [a.id], s.dirLog, s.movLog⟩) ∨
    (∃ r', migrate_one p sp i a s
        = ⟨s.cells, r', s.decLog ++ [a.id], s.dirLog ++ [a.id], s.movLog⟩) ∨
    (∃ (r' : Rng) (j : ℕ) (d : Fin 4), (getCell s.cells i).adjacent_cells d = some j ∧
        (getCell s.cells j).accessability = true ∧
        migrate_one p sp i a s
          = ⟨transferCells s.cells i j sp d a, r',
              s.decLog ++ [a.id], s.dirLog ++ [a.id], s.movLog ++ [a.id]⟩) := by
  simp only [migrate_one]
  by_cases hm : (migrate_or_not p a s.rng).1 = true
  · rw [if_pos hm]
    cases hadj : (getCell s.cells i).adjacent_cells
        (migration_direction (migrate_or_not p a s.rng).2).1 with
    | none =>
      simp only [hadj]
      right; left
      exact ⟨_, rfl⟩
    | some j =>
      simp only [hadj]
      by_cases hacc : (getCell s.cells j).accessability = true
      · rw [if_pos hacc]
        right; right
        exact ⟨_, j, _, hadj, hacc, rfl⟩
      · rw [if_neg hacc]
        right; left
        exact ⟨_, rfl⟩
  · rw [if_neg hm]
    left
    exact ⟨_, rfl⟩

/-- The sentinel contributes no ids, so `withSepList` preserves ids. -/
theorem idsOfList_withSepList (l : List Entry) (d : Fin 4) :
    idsOfList (withSepList l d) = idsOfList l := by
  unfold withSepList
  split
  · rw [idsOfList_append, idsOfList_sep, List.append_nil]
  · rfl

/-- What `transferCells` does to each cell: the destination's species
list becomes the possibly-sentinelled old list with the animal appended,
the source's species list has the animal's entry erased, and every other
cell and species list is untouched. -/
theorem transferCells_spec (cs : List Cell) (i j : ℕ) (sp : Species) (d : Fin 4)
    (a : Animal) (hi : i < cs.length) (hj : j < cs.length) (hij : j ≠ i) :
    (getCell (transferCells cs i j sp d a) j).getList sp
        = withSepList ((getCell cs j).getList sp) d ++ [Entry.animal a] ∧
    (getCell (transferCells cs i j sp d a) i).getList sp
        = ((getCell cs i).getList sp).eraseP (entryHasId a.id) ∧
    (∀ k, k ≠ i → k ≠ j → getCell (transferCells cs i j sp d a) k = getCell cs k) ∧
    (∀ k (sp' : Species), sp' ≠ sp →
      (getCell (transferCells cs i j sp d a) k).getList sp'
        = (getCell cs k).getList sp') := by
  unfold transferCells
  have hlen3 : (setCellList cs j sp
      (withSepList ((getCell cs j).getList sp) d ++ [Entry.animal a])).length = cs.length :=
    length_setCellList cs j sp _
  have hsrc3 : (getCell (setCellList cs j sp
        (withSepList ((getCell cs j).getList sp) d ++ [Entry.animal a])) i).getList sp
      = (getCell cs i).getList sp := by
    rw [getCell_setCellList_ne cs j sp _ i (fun h => hij h.symm)]
  refine ⟨?_, ?_, ?_, ?_⟩
  · rw [getCell_setCellList_ne _ i sp _ j hij,
      getCell_setCellList_self cs j sp _ hj, getList_setList_same]
  · rw [getCell_setCellList_self _ i sp _ (by rw [hlen3]; exact hi), getList_setList_same, hsrc3]
  · intro k hki hkj
    rw [getCell_setCellList_ne _ i sp _ k hki, getCell_setCellList_ne cs j sp _ k hkj]
  · intro k sp' hsp
    by_cases hki : k = i
    · subst hki
      rw [getCell_setCellList_self _ k sp _ (by rw [hlen3]; exact hi),
        getList_setList_other _ sp sp' _ hsp]
      by_cases hkj : k = j
      · exact absurd hkj.symm hij
      · rw [getCell_setCellList_ne cs j sp _ k hkj]
    · rw [getCell_setCellList_ne _ i sp _ k hki]
      by_cases hkj : k = j
      · subst hkj
        rw [getCell_setCellList_self cs k sp _ hj, getList_setList_other _ sp sp' _ hsp]
      · rw [getCell_setCellList_ne cs j sp _ k hkj]

/-- `transferCells` preserves every id count on the island, provided the
animal is present in the source list. -/
theorem transferCells_count (cs : List Cell) (i j : ℕ) (sp : Species) (d : Fin 4)
    (a : Animal) (hi : i < cs.length) (hj : j < cs.length) (hij : j ≠ i)
    (hpres : a.id ∈ idsOfList ((getCell cs i).getList sp)) (x : ℕ) :
    (islandIds (transferCells cs i j sp d a)).count x = (islandIds cs).count x := by
  simp only [transferCells]
  have hlen3 : (setCellList cs j sp
      (withSepList ((getCell cs j).getList sp) d ++ [Entry.animal a])).length = cs.length :=
    length_setCellList cs j sp _
  have hsrc3 : (getCell (setCellList cs j sp
        (withSepList ((getCell cs j).getList sp) d ++ [Entry.animal a])) i).getList sp
      = (getCell cs i).getList sp := by
    rw [getCell_setCellList_ne cs j sp _ i (fun h => hij h.symm)]
  have h1 := count_islandIds_setCellList cs j sp
    (withSepList ((getCell cs j).getList sp) d ++ [Entry.animal a]) x hj
  have h2 := count_islandIds_setCellList
    (setCellList cs j sp (withSepList ((getCell cs j).getList sp) d ++ [Entry.animal a])) i sp
    (((getCell (setCellList cs j sp
        (withSepList ((getCell cs j).getList sp) d ++ [Entry.animal a])) i).getList sp).eraseP
      (entryHasId a.id)) x (by rw [hlen3]; exact hi)
  rw [hsrc3] at h2
  rw [hsrc3]
  rw [idsOfList_append, idsOfList_withSepList, idsOfList_animal, List.count_append] at h1
  rw [idsOfList_eraseP] at h2
  by_cases hx : x = a.id
  · subst hx
    rw [List.count_erase_self] at h2
    have hcnt : 0 < (idsOfList ((getCell cs i).getList sp)).count a.id :=
      List.count_pos_iff.mpr hpres
    simp only [List.count_singleton, beq_self_eq_true, if_true] at h1
    omega
  · rw [List.count_erase_of_ne hx] at h2
    have hne : (a.id == x) = false := beq_eq_false_iff_ne.mpr (fun h => hx h.symm)
    simp only [List.count_singleton, hne] at h1
    simp only [Bool.false_eq_true, if_false] at h1
    omega

/-- Two cell arrays of the same grid: equal length and, cell for cell,
equal accessibility and neighbour references (only resident lists may
differ).  Every migration operation preserves this. -/
def sameShape (cs cs' : List Cell) : Prop :=
  cs'.length = cs.length ∧
  ∀ k, (getCell cs' k).accessability = (getCell cs k).accessability ∧
       (getCell cs' k).adjacent_cells = (getCell cs k).adjacent_cells

/-- Shape is reflexive. -/
theorem sameShape_refl (cs : List Cell) : sameShape cs cs :=
  ⟨rfl, fun _ => ⟨rfl, rfl⟩⟩

/-- Shape is transitive. -/
theorem sameShape_trans {cs1 cs2 cs3 : List Cell}
    (h12 : sameShape cs1 cs2) (h23 : sameShape cs2 cs3) : sameShape cs1 cs3 :=
  ⟨h23.1.trans h12.1, fun k =>
    ⟨(h23.2 k).1.trans (h12.2 k).1, (h23.2 k).2.trans (h12.2 k).2⟩⟩

/-- Writing a resident list preserves the shape. -/
theorem sameShape_setCellList (cs : List Cell) (i : ℕ) (sp : Species) (l : List Entry) :
    sameShape cs (setCellList cs i sp l) := by
  refine ⟨length_setCellList cs i sp l, fun k => ?_⟩
  by_cases hk : k = i
  · subst hk
    by_cases hlen : k < cs.length
    · rw [getCell_setCellList_self cs k sp l hlen, accessability_setList, adjacent_setList]
      exact ⟨rfl, rfl⟩
    · have : setCellList cs k sp l = cs :=
        List.set_eq_of_length_le (by omega)
      rw [this]
      exact ⟨rfl, rfl⟩
  · rw [getCell_setCellList_ne cs i sp l k hk]
    exact ⟨rfl, rfl⟩

/-- The ownership transfer preserves the shape. -/
theorem sameShape_transferCells (cs : List Cell) (i j : ℕ) (sp : Species) (d : Fin 4)
    (a : Animal) : sameShape cs (transferCells cs i j sp d a) :=
  sameShape_trans (sameShape_setCellList cs j sp _) (sameShape_setCellList _ i sp _)

/-- The loop body for one animal preserves the shape. -/
theorem sameShape_migrate_one (p : AnimalParams) (sp : Species) (i : ℕ) (a : Animal)
    (s : MigState) : sameShape s.cells (migrate_one p sp i a s).cells := by
  rcases migrate_one_cases p sp i a s with ⟨r', h⟩ | ⟨r', h⟩ | ⟨r', j, d, _, _, h⟩ <;> rw [h]
  · exact sameShape_refl s.cells
  · exact sameShape_refl s.cells
  · exact sameShape_transferCells s.cells i j sp d a

/-- The per-cell species migration preserves the shape. -/
theorem sameShape_migrate_species (p : AnimalParams) (sp : Species) (i : ℕ)
    (s : MigState) : sameShape s.cells (migrate_species p sp i s).cells := by
  simp only [migrate_species]
  have hfold : ∀ (l : List Animal) (st : MigState), sameShape st.cells
      (l.foldl (fun st a => migrate_one p sp i a st) st).cells := by
    intro l
    induction l with
    | nil => intro st; exact sameShape_refl st.cells
    | cons a rest ih =>
      intro st
      exact sameShape_trans (sameShape_migrate_one p sp i a st) (ih (migrate_one p sp i a st))
  exact sameShape_trans (hfold _ s) (sameShape_setCellList _ i sp _)

/-- Equal shapes give equal accessible index lists. -/
theorem accessible_indices_sameShape {cs cs' : List Cell} (h : sameShape cs cs') :
    accessible_indices cs' = accessible_indices cs := by
  unfold accessible_indices
  rw [h.1]
  exact List.filter_congr (fun k _ => by rw [(h.2 k).1])

/-- Equal shapes give equal adjacency soundness. -/
theorem adjOk_sameShape {cs cs' : List Cell} (h : sameShape cs cs') (i : ℕ) (d : Fin 4) :
    adjOk cs' i d = adjOk cs i d := by
  unfold adjOk
  rw [(h.2 i).2]
  rw [h.1]
  cases (getCell cs i).adjacent_cells d with
  | none => rfl
  | some j =>
    show (decide (j < cs.length) && decide (j ≠ i) &&
        if (getCell cs' j).accessability = true
        then (if (d : ℕ) = 1 ∨ (d : ℕ) = 2 then decide (i < j) else decide (j < i))
        else true)
      = (decide (j < cs.length) && decide (j ≠ i) &&
        if (getCell cs j).accessability = true
        then (if (d : ℕ) = 1 ∨ (d : ℕ) = 2 then decide (i < j) else decide (j < i))
        else true)
    rw [(h.2 j).1]

/-- The whole migration stage preserves the shape. -/
theorem sameShape_migration_stage_fold (ph pc : AnimalParams) (order : List ℕ)
    (s : MigState) :
    sameShape s.cells
      ((order.foldl (fun st i => migrate_species pc .carn i (migrate_species ph .herb i st)) s)).cells := by
  induction order generalizing s with
  | nil => exact sameShape_refl s.cells
  | cons i rest ih =>
    refine sameShape_trans ?_ (ih _)
    exact sameShape_trans (sameShape_migrate_species ph .herb i s)
      (sameShape_migrate_species pc .carn i _)

/-- The ids in the prefix before the first sentinel. -/
def preSepIds (l : List Entry) : List ℕ :=
  idsOfList (preSep l)

/-- Sentinel removal does not change the ids of a list. -/
theorem idsOfList_filter_nonsep (l : List Entry) :
    idsOfList (l.filter (fun e => !e.isSep)) = idsOfList l := by
  induction l with
  | nil => rfl
  | cons e rest ih =>
    cases e with
    | sep =>
      show idsOfList (List.filter _ rest) = idsOfList rest
      exact ih
    | animal a =>
      show idsOfList (Entry.animal a :: rest.filter (fun e => !e.isSep))
        = idsOfList (Entry.animal a :: rest)
      show a.id :: idsOfList (rest.filter (fun e => !e.isSep)) = a.id :: idsOfList rest
      rw [ih]

/-- Appending an animal preserves sentinel-freeness. -/
theorem sepFreeList_append_animal (l : List Entry) (a : Animal) :
    sepFreeList (l ++ [Entry.animal a]) = sepFreeList l := by
  unfold sepFreeList
  rw [List.all_append]
  simp [Entry.isSep]

/-- The sentinel cleanup leaves a sentinel-free list. -/
theorem sepFreeList_filter (l : List Entry) :
    sepFreeList (l.filter (fun e => !e.isSep)) = true := by
  unfold sepFreeList
  rw [List.all_eq_true]
  intro e he
  exact (List.mem_filter.mp he).2

/-- On a sentinel-free list the loop slice is the whole list. -/
theorem preSep_of_sepFree (l : List Entry) (h : sepFreeList l = true) :
    preSep l = l := by
  unfold preSep
  apply List.takeWhile_eq_self_iff.mpr
  intro e he
  exact (List.all_eq_true.mp h) e he

/-- The loop slice steps over an animal entry. -/
theorem preSep_cons_animal (a : Animal) (l : List Entry) :
    preSep (Entry.animal a :: l) = Entry.animal a :: preSep l := by
  unfold preSep
  exact List.takeWhile_cons_of_pos rfl

/-- The loop slice stops at a sentinel. -/
theorem preSep_cons_sep (l : List Entry) : preSep (Entry.sep :: l) = [] := by
  unfold preSep
  rw [List.takeWhile_cons]
  rfl

/-- If a sentinel is present, appending entries does not change the loop
slice. -/
theorem preSep_append_of_any_sep (l l2 : List Entry) (h : l.any Entry.isSep = true) :
    preSep (l ++ l2) = preSep l := by
  induction l with
  | nil => simp [List.any_nil] at h
  | cons e rest ih =>
    cases e with
    | sep =>
      rw [List.cons_append, preSep_cons_sep, preSep_cons_sep]
    | animal a =>
      have h' : rest.any Entry.isSep = true := by
        simpa [Entry.isSep] using h
      rw [List.cons_append, preSep_cons_animal, preSep_cons_animal, ih h']

/-- On a sentinel-free list, the slice of the list with a sentinel and
anything appended is the original list. -/
theorem preSep_append_sep (l l2 : List Entry) (h : sepFreeList l = true) :
    preSep ((l ++ [Entry.sep]) ++ l2) = l := by
  induction l with
  | nil =>
    rw [List.nil_append, List.cons_append, preSep_cons_sep]
  | cons e rest ih =>
    cases e with
    | sep => simp [sepFreeList, Entry.isSep] at h
    | animal a =>
      have hrest : sepFreeList rest = true := by
        unfold sepFreeList at h ⊢
        rw [List.all_cons] at h
        exact (Bool.and_eq_true_iff.mp h).2
      rw [List.cons_append, List.cons_append, preSep_cons_animal, ih hrest]

/-- Appending a migrant behind the sentinel guard does not change the
loop slice's ids, for a rightward or downward move. -/
theorem preSepIds_withSepList_append (l : List Entry) (d : Fin 4) (a : Animal)
    (hd : 0 < (d : ℕ) ∧ (d : ℕ) < 3) :
    preSepIds (withSepList l d ++ [Entry.animal a]) = preSepIds l := by
  unfold withSepList
  by_cases hs : l.any Entry.isSep = true
  · rw [if_neg (by simp [hs])]
    unfold preSepIds
    rw [preSep_append_of_any_sep l [Entry.animal a] hs]
  · have hfree : sepFreeList l = true := by
      unfold sepFreeList
      rw [List.all_eq_true]
      intro e he
      by_contra hc
      exact hs (List.any_eq_true.mpr ⟨e, he, by simpa using hc⟩)
    rw [if_pos ⟨hd, by simpa using hs⟩]
    unfold preSepIds
    rw [preSep_append_sep l [Entry.animal a] hfree, preSep_of_sepFree l hfree]

/-- Ids of the loop slice are ids of the list. -/
theorem mem_idsOfList_of_mem_preSepIds (l : List Entry) (x : ℕ)
    (h : x ∈ preSepIds l) : x ∈ idsOfList l := by
  unfold preSepIds preSep at h
  unfold idsOfList at h ⊢
  obtain ⟨e, he, hx⟩ := List.mem_filterMap.mp h
  exact List.mem_filterMap.mpr ⟨e, (List.takeWhile_sublist _).mem he, hx⟩

/-- The ids of the snapshot the loop iterates are the loop slice's ids. -/
theorem snapshot_ids (l : List Entry) :
    (((l.takeWhile (fun e => !e.isSep)).filterMap Entry.toAnimal).map Animal.id)
      = preSepIds l := by
  unfold preSepIds idsOfList preSep
  rw [List.map_filterMap]

/-- A cell's id count is bounded by the island's id count. -/
theorem count_cell_le_island (cs : List Cell) (k : ℕ) (sp : Species) (x : ℕ)
    (hk : k < cs.length) :
    (idsOfList ((getCell cs k).getList sp)).count x ≤ (islandIds cs).count x := by
  unfold islandIds
  rw [List.count_flatten]
  have hmem : (cellIds (getCell cs k)).count x ∈ ((cs.map cellIds).map (List.count x)) := by
    refine List.mem_map.mpr ⟨cellIds (getCell cs k), List.mem_map.mpr ⟨getCell cs k, ?_, rfl⟩, rfl⟩
    have : getCell cs k = cs.get ⟨k, hk⟩ := by
      unfold getCell
      rw [List.getD_eq_getElem _ _ hk]
      rfl
    rw [this]
    exact List.get_mem cs k hk
  have hle : (cellIds (getCell cs k)).count x ≤ ((cs.map cellIds).map (List.count x)).sum :=
    List.le_sum_of_mem hmem
  refine le_trans ?_ hle
  unfold cellIds
  rw [List.count_append]
  cases sp <;> simp [Cell.getList]

/-- Two entries of a list of naturals at distinct positions are jointly
bounded by the sum. -/
theorem two_le_sum (l : List ℕ) (t1 t2 : ℕ) (h1 : t1 < l.length) (h2 : t2 < l.length)
    (hne : t1 ≠ t2) : l.get ⟨t1, h1⟩ + l.get ⟨t2, h2⟩ ≤ l.sum := by
  induction l generalizing t1 t2 with
  | nil => simp at h1
  | cons h t ih =>
    cases t1 with
    | zero =>
      cases t2 with
      | zero => exact absurd rfl hne
      | succ k2 =>
        simp only [List.get, List.sum_cons]
        have : t.get ⟨k2, by simpa using h2⟩ ≤ t.sum :=
          List.le_sum_of_mem (t.get_mem k2 (by simpa using h2))
        omega
    | succ k1 =>
      cases t2 with
      | zero =>
        simp only [List.get, List.sum_cons]
        have : t.get ⟨k1, by simpa using h1⟩ ≤ t.sum :=
          List.le_sum_of_mem (t.get_mem k1 (by simpa using h1))
        omega
      | succ k2 =>
        simp only [List.get, List.sum_cons]
        have := ih k1 k2 (by simpa using h1) (by simpa using h2) (by omega)
        omega

/-- Two distinct (cell, species) slots contribute jointly to the island's
id count. -/
theorem count_two_slots (cs : List Cell) (k1 : ℕ) (sp1 : Species) (k2 : ℕ) (sp2 : Species)
    (x : ℕ) (h1 : k1 < cs.length) (h2 : k2 < cs.length)
    (hne : (k1, sp1) ≠ (k2, sp2)) :
    (idsOfList ((getCell cs k1).getList sp1)).count x
      + (idsOfList ((getCell cs k2).getList sp2)).count x
      ≤ (islandIds cs).count x := by
  by_cases hk : k1 = k2
  · subst hk
    have hsp : sp1 ≠ sp2 := fun h => hne (by rw [h])
    have hcell : (idsOfList ((getCell cs k1).getList sp1)).count x
        + (idsOfList ((getCell cs k1).getList sp2)).count x
        ≤ (cellIds (getCell cs k1)).count x := by
      unfold cellIds
      rw [List.count_append]
      cases sp1 <;> cases sp2 <;> first
        | exact absurd rfl hsp
        | (simp [Cell.getList]; try omega)
    refine le_trans hcell ?_
    unfold islandIds
    rw [List.count_flatten]
    refine List.le_sum_of_mem ?_
    refine List.mem_map.mpr ⟨cellIds (getCell cs k1), List.mem_map.mpr ⟨getCell cs k1, ?_, rfl⟩, rfl⟩
    have hg : getCell cs k1 = cs.get ⟨k1, h1⟩ := by
      unfold getCell
      rw [List.getD_eq_getElem _ _ h1]
      rfl
    rw [hg]
    exact List.get_mem cs k1 h1
  · unfold islandIds
    rw [List.count_flatten]
    have hlen : ∀ t, t < cs.length → t < ((cs.map cellIds).map (List.count x)).length := by
      intro t ht
      simpa using ht
    have hget : ∀ t (ht : t < cs.length),
        ((cs.map cellIds).map (List.count x)).get ⟨t, hlen t ht⟩
          = (cellIds (getCell cs t)).count x := by
      intro t ht
      simp only [List.get_eq_getElem, List.getElem_map]
      congr 2
      unfold getCell
      rw [List.getD_eq_getElem _ _ ht]
    have h2s := two_le_sum ((cs.map cellIds).map (List.count x)) k1 k2
      (hlen k1 h1) (hlen k2 h2) hk
    rw [hget k1 h1, hget k2 h2] at h2s
    have hc1 : (idsOfList ((getCell cs k1).getList sp1)).count x
        ≤ (cellIds (getCell cs k1)).count x := by
      unfold cellIds
      rw [List.count_append]
      cases sp1 <;> simp [Cell.getList]
    have hc2 : (idsOfList ((getCell cs k2).getList sp2)).count x
        ≤ (cellIds (getCell cs k2)).count x := by
      unfold cellIds
      rw [List.count_append]
      cases sp2 <;> simp [Cell.getList]
    omega

/-- Invariant of the per-animal loop while pair `(i, sp)` is being
processed and the pairs in `rest` are still pending: the shape and all id
counts agree with the initial state, animals before the first sentinel of
a pending pair's list have not been evaluated, every settled pair's list
is sentinel-free, no animal has two decision evaluations, and direction
draws and transfers are bounded by decision evaluations. -/
def InnerInv (s0 : MigState) (i : ℕ) (sp : Species) (rest : List (ℕ × Species))
    (st : MigState) : Prop :=
  sameShape s0.cells st.cells ∧
  (∀ x, (islandIds st.cells).count x = (islandIds s0.cells).count x) ∧
  (∀ ks ∈ rest, ∀ x, x ∈ preSepIds ((getCell st.cells ks.1).getList ks.2) → x ∉ st.decLog) ∧
  (∀ k (sp' : Species), (k, sp') ∉ rest → (k, sp') ≠ (i, sp) →
    sepFreeList ((getCell st.cells k).getList sp') = true) ∧
  st.decLog.Nodup ∧
  (∀ x, st.dirLog.count x ≤ st.decLog.count x) ∧
  (∀ x, st.movLog.count x ≤ st.dirLog.count x)

/-- Count of a list extended by one element. -/
theorem count_append_one (l : List ℕ) (y x : ℕ) :
    (l ++ [y]).count x = l.count x + (if y = x then 1 else 0) := by
  rw [List.count_append]
  by_cases h : y = x
  · simp [h]
  · rw [if_neg h, List.count_singleton]
    have : (y == x) = false := beq_eq_false_iff_ne.mpr h
    simp [this]

/-- Nodup of a list extended by a fresh element. -/
theorem nodup_append_one (l : List ℕ) (y : ℕ) (hl : l.Nodup) (hy : y ∉ l) :
    (l ++ [y]).Nodup := by
  simp [List.nodup_append, hl, hy]

/-- Unpack the adjacency soundness of one direction. -/
theorem adjOk_elim {cs : List Cell} {i : ℕ} {d : Fin 4} {j : ℕ}
    (hok : adjOk cs i d = true) (hadj : (getCell cs i).adjacent_cells d = some j) :
    j < cs.length ∧ j ≠ i ∧
    ((getCell cs j).accessability = true →
      (((d : ℕ) = 1 ∨ (d : ℕ) = 2) → i < j) ∧
      (¬((d : ℕ) = 1 ∨ (d : ℕ) = 2) → j < i)) := by
  unfold adjOk at hok
  rw [hadj] at hok
  simp only [Bool.and_eq_true, decide_eq_true_eq] at hok
  refine ⟨hok.1.1, hok.1.2, fun hacc => ?_⟩
  rw [hacc] at hok
  simp only [if_true] at hok
  by_cases hd : (d : ℕ) = 1 ∨ (d : ℕ) = 2
  · rw [if_pos hd] at hok
    simp only [decide_eq_true_eq] at hok
    exact ⟨fun _ => hok.2, fun hc => absurd hd hc⟩
  · rw [if_neg hd] at hok
    simp only [decide_eq_true_eq] at hok
    exact ⟨fun hc => absurd hc hd, fun _ => hok.2⟩

/-- One animal's loop body preserves the inner invariant; moreover the
source list is unchanged or has exactly that animal's entry erased, and
the decision log grows by exactly that animal's id. -/
theorem migrate_one_step
    (s0 : MigState) (hn0 : (islandIds s0.cells).Nodup)
    (i : ℕ) (sp : Species) (rest : List (ℕ × Species))
    (hi : i < s0.cells.length)
    (hadjok : ∀ d : Fin 4, adjOk s0.cells i d = true)
    (hmem : ∀ (j : ℕ) (d : Fin 4), (getCell s0.cells i).adjacent_cells d = some j →
      (getCell s0.cells j).accessability = true →
      ((((d : ℕ) = 1 ∨ (d : ℕ) = 2) → (j, sp) ∈ rest) ∧
       (¬((d : ℕ) = 1 ∨ (d : ℕ) = 2) → (j, sp) ∉ rest)))
    (hnotin : (i, sp) ∉ rest)
    (hrestValid : ∀ ks ∈ rest, ks.1 < s0.cells.length)
    (p : AnimalParams) (a : Animal) (st : MigState)
    (hinv : InnerInv s0 i sp rest st)
    (hpres : a.id ∈ idsOfList ((getCell st.cells i).getList sp))
    (hlog : a.id ∉ st.decLog) :
    InnerInv s0 i sp rest (migrate_one p sp i a st) ∧
    ((getCell (migrate_one p sp i a st).cells i).getList sp
        = (getCell st.cells i).getList sp ∨
      (getCell (migrate_one p sp i a st).cells i).getList sp
        = ((getCell st.cells i).getList sp).eraseP (entryHasId a.id)) ∧
    (migrate_one p sp i a st).decLog = st.decLog ++ [a.id] := by
  obtain ⟨hshape, hcnt, hpend, hdone, hnodup, hdirdec, hmovdir⟩ := hinv
  have hcount1 : ∀ x, (islandIds st.cells).count x ≤ 1 := by
    intro x
    rw [hcnt x]
    exact List.nodup_iff_count_le_one.mp hn0 x
  have hleneq : st.cells.length = s0.cells.length := hshape.1
  have hfresh : ∀ ks ∈ rest, ∀ x, x ∈ preSepIds ((getCell st.cells ks.1).getList ks.2) →
      x ≠ a.id := by
    intro ks hks x hx hxa
    subst hxa
    have hx' : a.id ∈ idsOfList ((getCell st.cells ks.1).getList ks.2) :=
      mem_idsOfList_of_mem_preSepIds _ _ hx
    have hCa : 0 < (idsOfList ((getCell st.cells ks.1).getList ks.2)).count a.id :=
      List.count_pos_iff.mpr hx'
    have hCb : 0 < (idsOfList ((getCell st.cells i).getList sp)).count a.id :=
      List.count_pos_iff.mpr hpres
    have hksne : (ks.1, ks.2) ≠ (i, sp) := by
      intro hcontr
      refine hnotin ?_
      have hks' : ks = (i, sp) := by
        obtain ⟨k1, k2⟩ := ks
        simpa using hcontr
      rw [← hks']
      exact hks
    have h2 := count_two_slots st.cells ks.1 ks.2 i sp a.id
      (by rw [hleneq]; exact hrestValid ks hks) (by rw [hleneq]; exact hi) hksne
    have h1 := hcount1 a.id
    omega
  have hnotmem_append : ∀ (l : List ℕ) (x y : ℕ), x ∉ l → x ≠ y → x ∉ l ++ [y] := by
    intro l x y h1 h2 hc
    rcases List.mem_append.mp hc with h | h
    · exact h1 h
    · exact h2 (by simpa using h)
  rcases migrate_one_cases p sp i a st with ⟨r', hcase⟩ | ⟨r', hcase⟩
    | ⟨r', j, d, hadjc, haccc, hcase⟩
  · rw [hcase]
    refine ⟨⟨hshape, hcnt, ?_, hdone, nodup_append_one _ _ hnodup hlog, ?_, hmovdir⟩,
      Or.inl rfl, rfl⟩
    · intro ks hks x hx
      exact hnotmem_append _ _ _ (hpend ks hks x hx) (hfresh ks hks x hx)
    · intro x
      show st.dirLog.count x ≤ (st.decLog ++ [a.id]).count x
      rw [count_append_one]
      have := hdirdec x
      omega
  · rw [hcase]
    refine ⟨⟨hshape, hcnt, ?_, hdone, nodup_append_one _ _ hnodup hlog, ?_, ?_⟩,
      Or.inl rfl, rfl⟩
    · intro ks hks x hx
      exact hnotmem_append _ _ _ (hpend ks hks x hx) (hfresh ks hks x hx)
    · intro x
      show (st.dirLog ++ [a.id]).count x ≤ (st.decLog ++ [a.id]).count x
      rw [count_append_one, count_append_one]
      have := hdirdec x
      omega
    · intro x
      show st.movLog.count x ≤ (st.dirLog ++ [a.id]).count x
      rw [count_append_one]
      have := hmovdir x
      omega
  · have hadj0 : (getCell s0.cells i).adjacent_cells d = some j := by
      rw [← (hshape.2 i).2]
      exact hadjc
    have hacc0 : (getCell s0.cells j).accessability = true := by
      rw [← (hshape.2 j).1]
      exact haccc
    obtain ⟨hjlen, hjne, _⟩ := adjOk_elim (hadjok d) hadj0
    have hmemj := hmem j d hadj0 hacc0
    have hilen' : i < st.cells.length := by rw [hleneq]; exact hi
    have hjlen' : j < st.cells.length := by rw [hleneq]; exact hjlen
    obtain ⟨hdest, hsrc, hother, hothersp⟩ :=
      transferCells_spec st.cells i j sp d a hilen' hjlen' hjne
    have hslot : ∀ (k1 : ℕ) (k2 : Species), (k1, k2) ≠ (i, sp) → (k1, k2) ≠ (j, sp) →
        (getCell (transferCells st.cells i j sp d a) k1).getList k2
          = (getCell st.cells k1).getList k2 := by
      intro k1 k2 hne1 hne2
      by_cases hsp' : k2 = sp
      · subst hsp'
        have hk1i : k1 ≠ i := fun h => hne1 (by rw [h])
        have hk1j : k1 ≠ j := fun h => hne2 (by rw [h])
        rw [hother k1 hk1i hk1j]
      · exact hothersp k1 k2 hsp'
    rw [hcase]
    refine ⟨⟨sameShape_trans hshape (sameShape_transferCells st.cells i j sp d a), ?_,
      ?_, ?_, nodup_append_one _ _ hnodup hlog, ?_, ?_⟩, Or.inr hsrc, rfl⟩
    · intro x
      rw [transferCells_count st.cells i j sp d a hilen' hjlen' hjne hpres x]
      exact hcnt x
    · rintro ⟨k1, k2⟩ hks x hx
      by_cases hkj : (k1, k2) = (j, sp)
      · have hk1 : k1 = j := congrArg Prod.fst hkj
        have hk2 : k2 = sp := congrArg Prod.snd hkj
        rw [hkj] at hks
        rw [hk1, hk2] at hx
        have hd12 : (d : ℕ) = 1 ∨ (d : ℕ) = 2 := by
          by_contra hcon
          exact (hmemj.2 hcon) hks
        have h0d : 0 < (d : ℕ) ∧ (d : ℕ) < 3 := by omega
        rw [hdest] at hx
        rw [preSepIds_withSepList_append _ d a h0d] at hx
        exact hnotmem_append _ _ _ (hpend (j, sp) hks x hx) (hfresh (j, sp) hks x hx)
      · have hki : (k1, k2) ≠ (i, sp) := by
          intro hc
          refine hnotin ?_
          rw [← hc]
          exact hks
        rw [hslot k1 k2 hki hkj] at hx
        exact hnotmem_append _ _ _ (hpend (k1, k2) hks x hx) (hfresh (k1, k2) hks x hx)
    · intro k sp' hkrest hki
      by_cases hkj : (k, sp') = (j, sp)
      · have hk1 : k = j := congrArg Prod.fst hkj
        have hk2 : sp' = sp := congrArg Prod.snd hkj
        have hkrest' : (j, sp) ∉ rest := hkj ▸ hkrest
        have hd03 : ¬((d : ℕ) = 1 ∨ (d : ℕ) = 2) := by
          intro hd12
          exact hkrest' (hmemj.1 hd12)
        have hws : withSepList ((getCell st.cells j).getList sp) d
            = (getCell st.cells j).getList sp := by
          unfold withSepList
          rw [if_neg]
          rintro ⟨⟨hg1, hg2⟩, _⟩
          exact hd03 (by omega)
        rw [hk1, hk2, hdest, hws, sepFreeList_append_animal]
        exact hdone j sp hkrest' (fun hc => hjne (congrArg Prod.fst hc))
      · rw [hslot k sp' hki hkj]
        exact hdone k sp' hkrest hki
    · intro x
      show (st.dirLog ++ [a.id]).count x ≤ (st.decLog ++ [a.id]).count x
      rw [count_append_one, count_append_one]
      have := hdirdec x
      omega
    · intro x
      show (st.movLog ++ [a.id]).count x ≤ (st.dirLog ++ [a.id]).count x
      rw [count_append_one, count_append_one]
      have := hmovdir x
      omega

/-- The loop over the snapshot preserves the inner invariant; the
decision log grows by exactly the snapshot's ids, in order. -/
theorem migrate_loop_inv
    (s0 : MigState) (hn0 : (islandIds s0.cells).Nodup)
    (i : ℕ) (sp : Species) (rest : List (ℕ × Species))
    (hi : i < s0.cells.length)
    (hadjok : ∀ d : Fin 4, adjOk s0.cells i d = true)
    (hmem : ∀ (j : ℕ) (d : Fin 4), (getCell s0.cells i).adjacent_cells d = some j →
      (getCell s0.cells j).accessability = true →
      ((((d : ℕ) = 1 ∨ (d : ℕ) = 2) → (j, sp) ∈ rest) ∧
       (¬((d : ℕ) = 1 ∨ (d : ℕ) = 2) → (j, sp) ∉ rest)))
    (hnotin : (i, sp) ∉ rest)
    (hrestValid : ∀ ks ∈ rest, ks.1 < s0.cells.length)
    (p : AnimalParams) :
    ∀ (S : List Animal) (st : MigState),
      InnerInv s0 i sp rest st →
      (∀ a ∈ S, a.id ∈ idsOfList ((getCell st.cells i).getList sp)) →
      (∀ a ∈ S, a.id ∉ st.decLog) →
      (S.map Animal.id).Nodup →
      InnerInv s0 i sp rest (S.foldl (fun st a => migrate_one p sp i a st) st) ∧
      (S.foldl (fun st a => migrate_one p sp i a st) st).decLog
        = st.decLog ++ S.map Animal.id := by
  intro S
  induction S with
  | nil =>
    intro st hinv _ _ _
    exact ⟨hinv, by simp⟩
  | cons a S ih =>
    intro st hinv hpres hlogS hnd
    have hstep := migrate_one_step s0 hn0 i sp rest hi hadjok hmem hnotin hrestValid p a st
      hinv (hpres a (List.mem_cons_self a S)) (hlogS a (List.mem_cons_self a S))
    obtain ⟨hinv1, hsrc1, hdec1⟩ := hstep
    have hndtail : (S.map Animal.id).Nodup := by
      rw [List.map_cons] at hnd
      exact hnd.of_cons
    have hafresh : a.id ∉ S.map Animal.id := by
      rw [List.map_cons] at hnd
      exact (List.nodup_cons.mp hnd).1
    have hpres1 : ∀ b ∈ S, b.id ∈ idsOfList
        ((getCell (migrate_one p sp i a st).cells i).getList sp) := by
      intro b hb
      have hbne : b.id ≠ a.id := by
        intro hc
        exact hafresh (hc ▸ List.mem_map_of_mem Animal.id hb)
      rcases hsrc1 with h | h
      · rw [h]
        exact hpres b (List.mem_cons_of_mem a hb)
      · rw [h, idsOfList_eraseP]
        exact List.mem_erase_of_ne hbne |>.mpr (hpres b (List.mem_cons_of_mem a hb))
    have hlog1 : ∀ b ∈ S, b.id ∉ (migrate_one p sp i a st).decLog := by
      intro b hb
      rw [hdec1]
      intro hc
      rcases List.mem_append.mp hc with h | h
      · exact hlogS b (List.mem_cons_of_mem a hb) h
      · have hbne : b.id ≠ a.id := by
          intro hcc
          exact hafresh (hcc ▸ List.mem_map_of_mem Animal.id hb)
        exact hbne (by simpa using h)
    have := ih (migrate_one p sp i a st) hinv1 hpres1 hlog1 hndtail
    refine ⟨this.1, ?_⟩
    rw [List.foldl_cons, this.2, hdec1, List.map_cons, List.append_assoc]
    rfl

/-- A slot other than the written one is unchanged by a list write. -/
theorem getList_setCellList_slot_ne (cs : List Cell) (i : ℕ) (sp : Species)
    (l : List Entry) (k1 : ℕ) (k2 : Species) (hne : (k1, k2) ≠ (i, sp)) :
    (getCell (setCellList cs i sp l) k1).getList k2 = (getCell cs k1).getList k2 := by
  by_cases hk : k1 = i
  · subst hk
    by_cases hlen : k1 < cs.length
    · rw [getCell_setCellList_self cs k1 sp l hlen]
      have hsp : k2 ≠ sp := fun h => hne (by rw [h])
      exact getList_setList_other _ sp k2 l hsp
    · have : setCellList cs k1 sp l = cs := List.set_eq_of_length_le (by omega)
      rw [this]
  · rw [getCell_setCellList_ne cs i sp l k1 hk]

/-- Ids of the loop slice of any slot are distinct when the island has no
duplicate ids. -/
theorem preSepIds_nodup (cs : List Cell) (k : ℕ) (sp : Species) (hk : k < cs.length)
    (hc1 : ∀ x, (islandIds cs).count x ≤ 1) :
    (preSepIds ((getCell cs k).getList sp)).Nodup := by
  rw [List.nodup_iff_count_le_one]
  intro x
  have hsub : (preSepIds ((getCell cs k).getList sp)).count x
      ≤ (idsOfList ((getCell cs k).getList sp)).count x := by
    unfold preSepIds preSep idsOfList
    exact ((List.takeWhile_sublist _).filterMap _).count_le x
  have hcell := count_cell_le_island cs k sp x hk
  have := hc1 x
  omega

/-- The sentinel cleanup preserves the inner invariant and leaves the
cleaned slot sentinel-free. -/
theorem cleanupCell_inv (s0 : MigState) (i : ℕ) (sp : Species)
    (rest : List (ℕ × Species)) (hnotin : (i, sp) ∉ rest) (hi : i < s0.cells.length)
    (st : MigState) (hinv : InnerInv s0 i sp rest st) :
    InnerInv s0 i sp rest (cleanupCell i sp st) ∧
    sepFreeList ((getCell (cleanupCell i sp st).cells i).getList sp) = true := by
  obtain ⟨hsh, hcnt, hpend, hdone, hnd, hdir, hmov⟩ := hinv
  have hile : i < st.cells.length := by
    rw [hsh.1]
    exact hi
  simp only [cleanupCell]
  constructor
  · refine ⟨sameShape_trans hsh (sameShape_setCellList _ i sp _), ?_, ?_, ?_, hnd, hdir, hmov⟩
    · intro x
      show (islandIds (setCellList st.cells i sp
          (((getCell st.cells i).getList sp).filter (fun e => !e.isSep)))).count x
        = (islandIds s0.cells).count x
      have heq := count_islandIds_setCellList st.cells i sp
        (((getCell st.cells i).getList sp).filter (fun e => !e.isSep)) x hile
      rw [idsOfList_filter_nonsep] at heq
      have := hcnt x
      omega
    · intro ks hks x hx
      rw [getList_setCellList_slot_ne _ i sp _ ks.1 ks.2 (by
        intro hc
        refine hnotin ?_
        have hks' : ks = (i, sp) := by
          obtain ⟨a1, a2⟩ := ks
          simpa using hc
        rw [← hks']
        exact hks)] at hx
      exact hpend ks hks x hx
    · intro k sp' hk1 hk2
      rw [getList_setCellList_slot_ne _ i sp _ k sp' hk2]
      exact hdone k sp' hk1 hk2
  · rw [getCell_setCellList_self _ i sp _ hile, getList_setList_same]
    exact sepFreeList_filter _

/-- Processing one (cell, species) pair preserves the inner invariant and
leaves the processed slot sentinel-free. -/
theorem migrate_species_inv
    (s0 : MigState) (hn0 : (islandIds s0.cells).Nodup)
    (i : ℕ) (sp : Species) (rest : List (ℕ × Species))
    (hi : i < s0.cells.length)
    (hadjok : ∀ d : Fin 4, adjOk s0.cells i d = true)
    (hmem : ∀ (j : ℕ) (d : Fin 4), (getCell s0.cells i).adjacent_cells d = some j →
      (getCell s0.cells j).accessability = true →
      ((((d : ℕ) = 1 ∨ (d : ℕ) = 2) → (j, sp) ∈ rest) ∧
       (¬((d : ℕ) = 1 ∨ (d : ℕ) = 2) → (j, sp) ∉ rest)))
    (hnotin : (i, sp) ∉ rest)
    (hrestValid : ∀ ks ∈ rest, ks.1 < s0.cells.length)
    (p : AnimalParams) (st : MigState)
    (hinv : InnerInv s0 i sp rest st)
    (hstart : ∀ x ∈ preSepIds ((getCell st.cells i).getList sp), x ∉ st.decLog) :
    InnerInv s0 i sp rest (migrate_species p sp i st) ∧
    sepFreeList ((getCell (migrate_species p sp i st).cells i).getList sp) = true := by
  have hileq : i < st.cells.length := by
    rw [hinv.1.1]
    exact hi
  have hc1 : ∀ x, (islandIds st.cells).count x ≤ 1 := by
    intro x
    rw [hinv.2.1 x]
    exact List.nodup_iff_count_le_one.mp hn0 x
  have hpresS : ∀ a ∈ (((getCell st.cells i).getList sp).takeWhile
      (fun e => !e.isSep)).filterMap Entry.toAnimal,
      a.id ∈ idsOfList ((getCell st.cells i).getList sp) := by
    intro a ha
    refine mem_idsOfList_of_mem_preSepIds _ _ ?_
    rw [← snapshot_ids]
    exact List.mem_map_of_mem Animal.id ha
  have hlogS : ∀ a ∈ (((getCell st.cells i).getList sp).takeWhile
      (fun e => !e.isSep)).filterMap Entry.toAnimal, a.id ∉ st.decLog := by
    intro a ha
    refine hstart a.id ?_
    rw [← snapshot_ids]
    exact List.mem_map_of_mem Animal.id ha
  have hndS : (((((getCell st.cells i).getList sp).takeWhile
      (fun e => !e.isSep)).filterMap Entry.toAnimal).map Animal.id).Nodup := by
    rw [snapshot_ids]
    exact preSepIds_nodup st.cells i sp hileq hc1
  obtain ⟨hinvF, _⟩ := migrate_loop_inv s0 hn0 i sp rest hi hadjok hmem hnotin hrestValid p
    ((((getCell st.cells i).getList sp).takeWhile (fun e => !e.isSep)).filterMap Entry.toAnimal)
    st hinv hpresS hlogS hndS
  have hcc := cleanupCell_inv s0 i sp rest hnotin hi
    (((((getCell st.cells i).getList sp).takeWhile
        (fun e => !e.isSep)).filterMap Entry.toAnimal).foldl
      (fun st a => migrate_one p sp i a st) st) hinvF
  simpa only [migrate_species] using hcc

/-- The stage-level invariant over the pending (cell, species) pairs. -/
def StageInv (s0 : MigState) (pend : List (ℕ × Species)) (st : MigState) : Prop :=
  sameShape s0.cells st.cells ∧
  (∀ x, (islandIds st.cells).count x = (islandIds s0.cells).count x) ∧
  (∀ ks ∈ pend, ∀ x ∈ preSepIds ((getCell st.cells ks.1).getList ks.2), x ∉ st.decLog) ∧
  (∀ k (sp' : Species), (k, sp') ∉ pend →
    sepFreeList ((getCell st.cells k).getList sp') = true) ∧
  st.decLog.Nodup ∧
  (∀ x, st.dirLog.count x ≤ st.decLog.count x) ∧
  (∀ x, st.movLog.count x ≤ st.dirLog.count x)

/-- Geometric soundness of a pending pair list relative to the grid: each
pair's cell is in range with sound neighbours, rightward/downward
accessible neighbours are processed later for the same species,
upward/leftward accessible neighbours are never processed later, and no
pair recurs. -/
def GoodPend (cs : List Cell) : List (ℕ × Species) → Prop
  | [] => True
  | (i, sp) :: rest =>
    (i < cs.length ∧
     (∀ d : Fin 4, adjOk cs i d = true) ∧
     (∀ (j : ℕ) (d : Fin 4), (getCell cs i).adjacent_cells d = some j →
        (getCell cs j).accessability = true →
        ((((d : ℕ) = 1 ∨ (d : ℕ) = 2) → (j, sp) ∈ rest) ∧
         (¬((d : ℕ) = 1 ∨ (d : ℕ) = 2) → (j, sp) ∉ rest))) ∧
     (i, sp) ∉ rest ∧
     (∀ ks ∈ rest, ks.1 < cs.length)) ∧
    GoodPend cs rest

/-- The migration stage as a fold over (cell, species) pairs, with the
species selecting its parameter table. -/
noncomputable def foldPairs (pf : Species → AnimalParams)
    (pend : List (ℕ × Species)) (st : MigState) : MigState :=
  pend.foldl (fun st ks => migrate_species (pf ks.2) ks.2 ks.1 st) st

/-- The stage invariant restricted below a popped head pair. -/
theorem StageInv_to_InnerInv (s0 : MigState) (i : ℕ) (sp : Species)
    (rest : List (ℕ × Species)) (st : MigState)
    (h : StageInv s0 ((i, sp) :: rest) st) : InnerInv s0 i sp rest st := by
  obtain ⟨h1, h2, h3, h4, h5, h6, h7⟩ := h
  refine ⟨h1, h2, ?_, ?_, h5, h6, h7⟩
  · intro ks hks x hx
    exact h3 ks (List.mem_cons_of_mem _ hks) x hx
  · intro k sp' hk1 hk2
    refine h4 k sp' ?_
    intro hc
    rcases List.mem_cons.mp hc with h | h
    · exact hk2 h
    · exact hk1 h

/-- The inner invariant together with a clean processed slot restores the
stage invariant for the remaining pairs. -/
theorem InnerInv_to_StageInv (s0 : MigState) (i : ℕ) (sp : Species)
    (rest : List (ℕ × Species)) (st : MigState)
    (h : InnerInv s0 i sp rest st)
    (hfree : sepFreeList ((getCell st.cells i).getList sp) = true) :
    StageInv s0 rest st := by
  obtain ⟨h1, h2, h3, h4, h5, h6, h7⟩ := h
  refine ⟨h1, h2, h3, ?_, h5, h6, h7⟩
  intro k sp' hk
  by_cases hki : (k, sp') = (i, sp)
  · have e1 : k = i := congrArg Prod.fst hki
    have e2 : sp' = sp := congrArg Prod.snd hki
    rw [e1, e2]
    exact hfree
  · exact h4 k sp' hk hki

/-- The fold over all pending pairs establishes the empty-pending stage
invariant. -/
theorem foldPairs_inv (s0 : MigState) (hn0 : (islandIds s0.cells).Nodup)
    (pf : Species → AnimalParams) :
    ∀ (pend : List (ℕ × Species)) (st : MigState),
      GoodPend s0.cells pend → StageInv s0 pend st →
      StageInv s0 [] (foldPairs pf pend st) := by
  intro pend
  induction pend with
  | nil =>
    intro st _ hsi
    exact hsi
  | cons ks rest ih =>
    obtain ⟨i, sp⟩ := ks
    intro st hgp hsi
    obtain ⟨⟨hi, hadjok, hmem, hnotin, hrestValid⟩, hgpr⟩ := hgp
    have hinner := StageInv_to_InnerInv s0 i sp rest st hsi
    have hstart := hsi.2.2.1 (i, sp) (List.mem_cons_self _ _)
    obtain ⟨hinv', hfree⟩ := migrate_species_inv s0 hn0 i sp rest hi hadjok hmem hnotin
      hrestValid (pf sp) st hinner hstart
    have hsi' : StageInv s0 rest (migrate_species (pf sp) sp i st) :=
      InnerInv_to_StageInv s0 i sp rest _ hinv' hfree
    have := ih (migrate_species (pf sp) sp i st) hgpr hsi'
    simpa only [foldPairs, List.foldl_cons] using this

/-- Each accessible cell contributes its herbivore pair and then its
carnivore pair to the processing order, matching the per-cell calls of
`_migration_stage`. -/
def pairsOf : List ℕ → List (ℕ × Species)
  | [] => []
  | i :: rest => (i, Species.herb) :: (i, Species.carn) :: pairsOf rest

/-- Membership in the pair order is membership in the cell order. -/
theorem mem_pairsOf (l : List ℕ) (j : ℕ) (sp : Species) :
    (j, sp) ∈ pairsOf l ↔ j ∈ l := by
  induction l with
  | nil => simp [pairsOf]
  | cons i rest ih =>
    cases sp <;> simp [pairsOf, Prod.ext_iff, ih, List.mem_cons]

/-- The per-cell composite fold of the stage equals the pair fold. -/
theorem fold_comp_eq (ph pc : AnimalParams) :
    ∀ (order : List ℕ) (s : MigState),
      order.foldl (fun st i => migrate_species pc .carn i (migrate_species ph .herb i st)) s
        = foldPairs (fun sp => match sp with | .herb => ph | .carn => pc) (pairsOf order) s := by
  intro order
  induction order with
  | nil =>
    intro s
    rfl
  | cons i rest ih =>
    intro s
    simp only [List.foldl_cons, pairsOf, foldPairs]
    exact ih _

/-- The migration stage is the pair fold over the accessible cells. -/
theorem migration_stage_eq (ph pc : AnimalParams) (s : MigState) :
    migration_stage ph pc s
      = foldPairs (fun sp => match sp with | .herb => ph | .carn => pc)
          (pairsOf (accessible_indices s.cells)) s := by
  unfold migration_stage
  exact fold_comp_eq ph pc (accessible_indices s.cells) s

/-- Characterization of the accessible index list. -/
theorem mem_accessible (cs : List Cell) (i : ℕ) :
    i ∈ accessible_indices cs ↔ i < cs.length ∧ (getCell cs i).accessability = true := by
  unfold accessible_indices
  simp [List.mem_filter, List.mem_range]

/-- The accessible index list is strictly increasing. -/
theorem accessible_sorted (cs : List Cell) :
    (accessible_indices cs).Pairwise (· < ·) :=
  List.Pairwise.filter _ (List.pairwise_lt_range _)

/-- Extract per-cell, per-direction adjacency soundness from the
island-wide row-major property. -/
theorem rowMajor_elim (cs : List Cell) (hrm : rowMajor cs = true) (i : ℕ)
    (hi : i ∈ accessible_indices cs) (d : Fin 4) : adjOk cs i d = true := by
  unfold rowMajor at hrm
  have h1 := List.all_eq_true.mp hrm i hi
  exact List.all_eq_true.mp h1 d (List.mem_finRange d)

/-- A strictly increasing list of accessible cells that is upward closed
(every accessible cell is either in the list or below all of it) yields a
sound pair order.  `_get_cells` produces exactly such a list on a
row-major island. -/
theorem goodPend_pairsOf (cs : List Cell) (hrm : rowMajor cs = true) :
    ∀ (l : List ℕ),
      l.Pairwise (· < ·) →
      (∀ i ∈ l, i ∈ accessible_indices cs) →
      (∀ j, j < cs.length → (getCell cs j).accessability = true →
        j ∈ l ∨ (∀ k ∈ l, j < k)) →
      GoodPend cs (pairsOf l) := by
  intro l
  induction l with
  | nil =>
    intro _ _ _
    trivial
  | cons i rest ih =>
    intro hsort hacc hcompl
    have hiacc := (mem_accessible cs i).mp (hacc i (List.mem_cons_self i rest))
    have hadjok : ∀ d : Fin 4, adjOk cs i d = true :=
      fun d => rowMajor_elim cs hrm i (hacc i (List.mem_cons_self i rest)) d
    have hrest_gt : ∀ k ∈ rest, i < k := fun k hk => (List.pairwise_cons.mp hsort).1 k hk
    have hvalid : ∀ ks ∈ pairsOf rest, ks.1 < cs.length := by
      rintro ⟨k1, k2⟩ hks
      have : k1 ∈ rest := (mem_pairsOf rest k1 k2).mp hks
      exact ((mem_accessible cs k1).mp (hacc k1 (List.mem_cons_of_mem i this))).1
    have hmemdir : ∀ (sp : Species) (tail1 : List (ℕ × Species)),
        (∀ j, (j, sp) ∈ tail1 ↔ j ∈ rest) →
        ∀ (j : ℕ) (d : Fin 4), (getCell cs i).adjacent_cells d = some j →
          (getCell cs j).accessability = true →
          ((((d : ℕ) = 1 ∨ (d : ℕ) = 2) → (j, sp) ∈ tail1) ∧
           (¬((d : ℕ) = 1 ∨ (d : ℕ) = 2) → (j, sp) ∉ tail1)) := by
      intro sp tail1 htail j d hadj hjacc
      obtain ⟨hjlen, hjne, hgeo⟩ := adjOk_elim (hadjok d) hadj
      constructor
      · intro hd12
        have hij : i < j := (hgeo hjacc).1 hd12
        rcases hcompl j hjlen hjacc with hin | hsmall
        · rcases List.mem_cons.mp hin with h | h
          · omega
          · exact (htail j).mpr h
        · have := hsmall i (List.mem_cons_self i rest)
          omega
      · intro hd03 hc
        have hji : j < i := (hgeo hjacc).2 hd03
        have : j ∈ rest := (htail j).mp hc
        have := hrest_gt j this
        omega
    refine ⟨⟨hiacc.1, hadjok, ?_, ?_, ?_⟩, ⟨hiacc.1, hadjok, ?_, ?_, ?_⟩, ?_⟩
    · refine hmemdir Species.herb ((i, Species.carn) :: pairsOf rest) ?_
      intro j
      constructor
      · intro hj
        rcases List.mem_cons.mp hj with h | h
        · exact absurd (congrArg Prod.snd h) (by intro hc; cases hc)
        · exact (mem_pairsOf rest j _).mp h
      · intro hj
        exact List.mem_cons_of_mem _ ((mem_pairsOf rest j _).mpr hj)
    · intro hc
      rcases List.mem_cons.mp hc with h | h
      · exact absurd (congrArg Prod.snd h) (by intro hc2; cases hc2)
      · have : i ∈ rest := (mem_pairsOf rest i _).mp h
        have := hrest_gt i this
        omega
    · rintro ⟨k1, k2⟩ hks
      rcases List.mem_cons.mp hks with h | h
      · have : k1 = i := congrArg Prod.fst h
        omega
      · exact hvalid (k1, k2) h
    · exact hmemdir Species.carn (pairsOf rest) (fun j => mem_pairsOf rest j _)
    · intro hc
      have : i ∈ rest := (mem_pairsOf rest i _).mp hc
      have := hrest_gt i this
      omega
    · exact hvalid
    · refine ih (List.pairwise_cons.mp hsort).2 (fun k hk => hacc k (List.mem_cons_of_mem i hk)) ?_
      intro j hjlen hjacc
      rcases hcompl j hjlen hjacc with hin | hsmall
      · rcases List.mem_cons.mp hin with h | h
        · subst h
          exact Or.inr hrest_gt
        · exact Or.inl h
      · exact Or.inr (fun k hk => hsmall k (List.mem_cons_of_mem i hk))

/-- A sentinel-free island is sentinel-free slot by slot. -/
theorem noSeps_slots (cs : List Cell) (h : noSeps cs = true) (k : ℕ) (sp : Species) :
    sepFreeList ((getCell cs k).getList sp) = true := by
  by_cases hk : k < cs.length
  · have hmem : getCell cs k ∈ cs := by
      have hg : getCell cs k = cs.get ⟨k, hk⟩ := by
        unfold getCell
        rw [List.getD_eq_getElem _ _ hk]
        rfl
      rw [hg]
      exact List.get_mem cs k hk
    have hck := List.all_eq_true.mp h (getCell cs k) hmem
    have hb := Bool.and_eq_true_iff.mp hck
    cases sp
    · exact hb.1
    · exact hb.2
  · have hg : getCell cs k = default := by
      unfold getCell
      exact List.getD_eq_default cs default (by omega)
    rw [hg]
    cases sp <;> rfl

/-- Slot-wise sentinel-freeness gives a sentinel-free island. -/
theorem slots_noSeps (cs : List Cell)
    (h : ∀ (k : ℕ) (sp : Species), sepFreeList ((getCell cs k).getList sp) = true) :
    noSeps cs = true := by
  unfold noSeps
  rw [List.all_eq_true]
  intro c hc
  obtain ⟨⟨k, hk⟩, hck⟩ := List.mem_iff_get.mp hc
  have hgc : getCell cs k = c := by
    unfold getCell
    rw [List.getD_eq_getElem _ _ hk]
    rw [← hck]
    rfl
  have h1 := h k Species.herb
  have h2 := h k Species.carn
  rw [hgc] at h1 h2
  simp only [Cell.getList] at h1 h2
  simp [h1, h2]

/-- The initial stage invariant on a clean island state. -/
theorem StageInv_initial (s : MigState)
    (hdec : s.decLog = []) (hdir : s.dirLog = []) (hmov : s.movLog = [])
    (hsep : noSeps s.cells = true) :
    StageInv s (pairsOf (accessible_indices s.cells)) s := by
  refine ⟨sameShape_refl _, fun x => rfl, ?_, ?_, ?_, ?_, ?_⟩
  · intro ks hks x hx
    rw [hdec]
    exact List.not_mem_nil x
  · intro k sp' _
    exact noSeps_slots s.cells hsep k sp'
  · rw [hdec]
    exact List.nodup_nil
  · intro x
    rw [hdir]
    exact Nat.zero_le _
  · intro x
    rw [hmov]
    exact Nat.zero_le _

/-- C1: over one invocation of the migration stage on all accessible
cells in construction (row-major) order, starting from a clean state
(fresh logs, distinct animal identities, no sentinels) on a row-major
island: the multiset of animal ids over all cells is preserved, every
animal present before appears in exactly one cell's collection afterwards
(no duplication, no loss), every animal's migration decision is evaluated
at most once, at most one direction is drawn per animal, and every animal
transfers cells at most once. -/
theorem claim_C1_migration (ph pc : AnimalParams) (s : MigState)
    (hdec : s.decLog = []) (hdir : s.dirLog = []) (hmov : s.movLog = [])
    (hn : (islandIds s.cells).Nodup)
    (hsep : noSeps s.cells = true)
    (hrm : rowMajor s.cells = true) :
    (islandIds (migration_stage ph pc s).cells).Perm (islandIds s.cells) ∧
    (∀ x ∈ islandIds s.cells, (islandIds (migration_stage ph pc s).cells).count x = 1) ∧
    (∀ x, (migration_stage ph pc s).decLog.count x ≤ 1) ∧
    (∀ x, (migration_stage ph pc s).dirLog.count x ≤ 1) ∧
    (∀ x, (migration_stage ph pc s).movLog.count x ≤ 1) := by
  rw [migration_stage_eq]
  have hGP := goodPend_pairsOf s.cells hrm (accessible_indices s.cells)
    (accessible_sorted s.cells) (fun i hi => hi)
    (fun j hj hacc => Or.inl ((mem_accessible s.cells j).mpr ⟨hj, hacc⟩))
  have hSI0 := StageInv_initial s hdec hdir hmov hsep
  obtain ⟨hsh, hcnt, _, hdone, hnd, hdirdec, hmovdir⟩ :=
    foldPairs_inv s hn (fun sp => match sp with | .herb => ph | .carn => pc)
      (pairsOf (accessible_indices s.cells)) s hGP hSI0
  have hdecle : ∀ x, (foldPairs (fun sp => match sp with | .herb => ph | .carn => pc)
      (pairsOf (accessible_indices s.cells)) s).decLog.count x ≤ 1 :=
    fun x => List.nodup_iff_count_le_one.mp hnd x
  refine ⟨List.perm_iff_count.mpr hcnt, ?_, hdecle, ?_, ?_⟩
  · intro x hx
    rw [hcnt x]
    exact List.count_eq_one_of_mem hn hx
  · intro x
    exact le_trans (hdirdec x) (hdecle x)
  · intro x
    exact le_trans (hmovdir x) (le_trans (hdirdec x) (hdecle x))

/-- C10: after one complete migration stage on a clean row-major island,
no sentinel remains in any cell's herbivore or carnivore collection
anywhere on the island. -/
theorem claim_C10_no_sentinel (ph pc : AnimalParams) (s : MigState)
    (hdec : s.decLog = []) (hdir : s.dirLog = []) (hmov : s.movLog = [])
    (hn : (islandIds s.cells).Nodup)
    (hsep : noSeps s.cells = true)
    (hrm : rowMajor s.cells = true) :
    noSeps (migration_stage ph pc s).cells = true := by
  rw [migration_stage_eq]
  have hGP := goodPend_pairsOf s.cells hrm (accessible_indices s.cells)
    (accessible_sorted s.cells) (fun i hi => hi)
    (fun j hj hacc => Or.inl ((mem_accessible s.cells j).mpr ⟨hj, hacc⟩))
  have hSI0 := StageInv_initial s hdec hdir hmov hsep
  obtain ⟨_, _, _, hdone, _, _, _⟩ :=
    foldPairs_inv s hn (fun sp => match sp with | .herb => ph | .carn => pc)
      (pairsOf (accessible_indices s.cells)) s hGP hSI0
  exact slots_noSeps _ (fun k sp => hdone k sp (List.not_mem_nil (k, sp)))

/-- A concrete water cell with no recorded neighbours. -/
def waterCell : Cell :=
  ⟨[], [], false, fun _ => none⟩

/-- The island of layout `WWW / WLW / WWW` in row-major order: one
accessible lowland cell (index 4) holding one herbivore, surrounded by
water.  Its neighbours in direction order up, right, down, left are the
cells 1, 5, 7, 3. -/
def sanctuaryIsland : List Cell :=
  [waterCell, waterCell, waterCell, waterCell,
   ⟨[Entry.animal ⟨0, 5, 20⟩], [], true,
     fun d => match (d : ℕ) with
       | 0 => some 1
       | 1 => some 5
       | 2 => some 7
       | _ => some 3⟩,
   waterCell, waterCell, waterCell, waterCell]

/-- The sanctuary island with a fresh generator and empty logs. -/
def sanctuaryState : MigState :=
  ⟨sanctuaryIsland, zeroRng, [], [], []⟩

/-- Witness for C1 at the sanctuary island. -/
theorem claim_C1_witness :
    (islandIds (migration_stage herbivoreParams carnivoreParams sanctuaryState).cells).Perm
      (islandIds sanctuaryState.cells) ∧
    (∀ x ∈ islandIds sanctuaryState.cells,
      (islandIds (migration_stage herbivoreParams carnivoreParams sanctuaryState).cells).count x
        = 1) ∧
    (∀ x, (migration_stage herbivoreParams carnivoreParams sanctuaryState).decLog.count x ≤ 1) ∧
    (∀ x, (migration_stage herbivoreParams carnivoreParams sanctuaryState).dirLog.count x ≤ 1) ∧
    (∀ x, (migration_stage herbivoreParams carnivoreParams sanctuaryState).movLog.count x ≤ 1) :=
  claim_C1_migration herbivoreParams carnivoreParams sanctuaryState rfl rfl rfl
    (by decide) (by decide) (by decide)

/-- Witness for C10 at the sanctuary island. -/
theorem claim_C10_witness :
    noSeps (migration_stage carnivoreParams herbivoreParams sanctuaryState).cells = true :=
  claim_C10_no_sentinel carnivoreParams herbivoreParams sanctuaryState rfl rfl rfl
    (by decide) (by decide) (by decide)

/- ### C9: water cells hold no animals and are never migration destinations -/

/-- `island._add_animal_to_island`, inner loop over one cell's `pop` list
(`island.py` lines 165-173): each population entry carries a species
string, a weight and an age; a `"Herbivore"` entry constructs a
herbivore (the constructor raises `ValueError` for a non-positive
weight, `animal.py` lines 93-94) and appends it to the cell's
`herb_list`, a `"Carnivore"` entry likewise to `carn_list`, and any
other species string raises.  Object creation is modelled by drawing a
fresh id from a counter. -/
noncomputable def add_pop_to_cell : List Cell → ℕ → ℕ →
    List (String × ℝ × ℕ) → (List Cell × ℕ) × Option String
  | cs, _, nextId, [] => ((cs, nextId), none)
  | cs, loc, nextId, (sp, w, ag) :: rest =>
    if sp = "Herbivore" then
      if w ≤ 0 then ((cs, nextId), some "Weight must be positive")
      else add_pop_to_cell
        (setCellList cs loc .herb
          ((getCell cs loc).getList .herb ++ [Entry.animal ⟨nextId, ag, w⟩]))
        loc (nextId + 1) rest
    else if sp = "Carnivore" then
      if w ≤ 0 then ((cs, nextId), some "Weight must be positive")
      else add_pop_to_cell
        (setCellList cs loc .carn
          ((getCell cs loc).getList .carn ++ [Entry.animal ⟨nextId, ag, w⟩]))
        loc (nextId + 1) rest
    else ((cs, nextId),
      some "'Herbivore' and 'Carnivore' are the only accepted species.")

/-- `island._add_animal_to_island` (`island.py` lines 155-176): for each
entry `(loc, pop)`, if the cell at `loc` is accessible its population is
appended species by species; otherwise a `ValueError` reporting a water
cell is raised, which aborts the whole insertion with the island left as
it was at that point. -/
noncomputable def _add_animal_to_island : List Cell → ℕ →
    List (ℕ × List (String × ℝ × ℕ)) → (List Cell × ℕ) × Option String
  | cs, nextId, [] => ((cs, nextId), none)
  | cs, nextId, (loc, pop) :: rest =>
    if (getCell cs loc).accessability then
      match add_pop_to_cell cs loc nextId pop with
      | ((cs2, n2), none) => _add_animal_to_island cs2 n2 rest
      | (res, some e) => (res, some e)
    else ((cs, nextId),
      some (toString loc ++ " is a water cell. Animals cannot be placed in water cell."))

/-- A transfer between cells `i` and `j` leaves every other cell
untouched. -/
theorem getCell_transferCells_ne (cs : List Cell) (i j : ℕ) (sp : Species) (d : Fin 4)
    (a : Animal) (k : ℕ) (hki : k ≠ i) (hkj : k ≠ j) :
    getCell (transferCells cs i j sp d a) k = getCell cs k := by
  simp only [transferCells]
  rw [getCell_setCellList_ne _ i sp _ k hki, getCell_setCellList_ne cs j sp _ k hkj]

/-- The loop body for one animal of cell `i` never touches an
inaccessible cell other than `i`: the only other cell it can write is an
accessible destination. -/
theorem migrate_one_untouched (p : AnimalParams) (sp : Species) (i : ℕ) (a : Animal)
    (st : MigState) (k : ℕ) (hki : k ≠ i)
    (hk : (getCell st.cells k).accessability = false) :
    getCell (migrate_one p sp i a st).cells k = getCell st.cells k := by
  rcases migrate_one_cases p sp i a st with ⟨r', h⟩ | ⟨r', h⟩ | ⟨r', j, d, hadj, hacc, h⟩
  · rw [h]
  · rw [h]
  · rw [h]
    have hkj : k ≠ j := by
      intro he
      rw [he, hacc] at hk
      exact Bool.noConfusion hk
    exact getCell_transferCells_ne st.cells i j sp d a k hki hkj

/-- The per-cell species migration of cell `i` never touches an
inaccessible cell other than `i`. -/
theorem migrate_species_untouched (p : AnimalParams) (sp : Species) (i : ℕ)
    (st : MigState) (k : ℕ) (hki : k ≠ i)
    (hk : (getCell st.cells k).accessability = false) :
    getCell (migrate_species p sp i st).cells k = getCell st.cells k := by
  simp only [migrate_species, cleanupCell]
  have hfold : ∀ (S : List Animal) (st' : MigState),
      (getCell st'.cells k).accessability = false →
      getCell ((S.foldl (fun st a => migrate_one p sp i a st) st')).cells k
        = getCell st'.cells k := by
    intro S
    induction S with
    | nil => intro st' _; rfl
    | cons a rest ih =>
      intro st' hk'
      rw [List.foldl_cons]
      have h1 : getCell (migrate_one p sp i a st').cells k = getCell st'.cells k :=
        migrate_one_untouched p sp i a st' k hki hk'
      have hk2 : (getCell (migrate_one p sp i a st').cells k).accessability = false := by
        rw [h1]
        exact hk'
      rw [ih (migrate_one p sp i a st') hk2, h1]
  rw [getCell_setCellList_ne _ i sp _ k hki]
  exact hfold _ st hk

/-- The pair fold over accessible source cells never touches an
inaccessible cell. -/
theorem foldPairs_untouched (pf : Species → AnimalParams)
    (pend : List (ℕ × Species)) :
    ∀ (st : MigState) (k : ℕ),
      (getCell st.cells k).accessability = false →
      (∀ q ∈ pend, (getCell st.cells q.1).accessability = true) →
      getCell (foldPairs pf pend st).cells k = getCell st.cells k := by
  induction pend with
  | nil =>
    intro st k _ _
    rfl
  | cons q rest ih =>
    intro st k hk hacc
    have hki : k ≠ q.1 := by
      intro he
      have hq1 := hacc q (List.mem_cons_self q rest)
      rw [← he, hk] at hq1
      exact Bool.noConfusion hq1
    have h1 : getCell (migrate_species (pf q.2) q.2 q.1 st).cells k = getCell st.cells k :=
      migrate_species_untouched (pf q.2) q.2 q.1 st k hki hk
    have hsh := sameShape_migrate_species (pf q.2) q.2 q.1 st
    have hk1 : (getCell (migrate_species (pf q.2) q.2 q.1 st).cells k).accessability
        = false := by
      rw [h1]
      exact hk
    have hacc1 : ∀ q2 ∈ rest,
        (getCell (migrate_species (pf q.2) q.2 q.1 st).cells q2.1).accessability = true := by
      intro q2 hq2
      rw [(hsh.2 q2.1).1]
      exact hacc q2 (List.mem_cons_of_mem q hq2)
    show getCell (foldPairs pf rest (migrate_species (pf q.2) q.2 q.1 st)).cells k
        = getCell st.cells k
    rw [ih (migrate_species (pf q.2) q.2 q.1 st) k hk1 hacc1, h1]

/-- When every recorded neighbour of cell `i` is inaccessible, the loop
body for one animal leaves the cell array unchanged: the transfer branch
requires an accessible destination. -/
theorem migrate_one_stuck (p : AnimalParams) (sp : Species) (i : ℕ) (a : Animal)
    (st : MigState)
    (hnb : ∀ (d : Fin 4), ((getCell st.cells i).adjacent_cells d).all
        (fun j => !(getCell st.cells j).accessability) = true) :
    (migrate_one p sp i a st).cells = st.cells := by
  rcases migrate_one_cases p sp i a st with ⟨r', h⟩ | ⟨r', h⟩ | ⟨r', j, d, hadj, hacc, h⟩
  · rw [h]
  · rw [h]
  · have h2 := hnb d
    rw [hadj, Option.all_some, hacc] at h2
    simp at h2

/-- Writing a cell's own list back is the identity on the cell array. -/
theorem setCellList_self (cs : List Cell) (i : ℕ) (sp : Species) :
    setCellList cs i sp ((getCell cs i).getList sp) = cs := by
  unfold setCellList
  have h1 : (getCell cs i).setList sp ((getCell cs i).getList sp) = getCell cs i := by
    cases sp <;> rfl
  rw [h1]
  by_cases hi : i < cs.length
  · apply List.ext_getElem
    · simp
    · intro n h2 h3
      rcases eq_or_ne n i with rfl | hne
      · rw [List.getElem_set_self]
        show cs.getD n default = cs[n]
        rw [List.getD_eq_getElem _ _ h3]
      · rw [List.getElem_set_ne (Ne.symm hne)]
  · exact List.set_eq_of_length_le (by omega)

/-- When every recorded neighbour of cell `i` is inaccessible and its
list holds no sentinel, the species migration of cell `i` leaves the
cell array unchanged: no animal finds a valid destination and the
sentinel cleanup filters nothing. -/
theorem migrate_species_stuck (p : AnimalParams) (sp : Species) (i : ℕ) (s : MigState)
    (hnb : ∀ (d : Fin 4), ((getCell s.cells i).adjacent_cells d).all
        (fun j => !(getCell s.cells j).accessability) = true)
    (hfree : sepFreeList ((getCell s.cells i).getList sp) = true) :
    (migrate_species p sp i s).cells = s.cells := by
  simp only [migrate_species, cleanupCell]
  have hfold : ∀ (S : List Animal) (st : MigState), st.cells = s.cells →
      (S.foldl (fun st a => migrate_one p sp i a st) st).cells = s.cells := by
    intro S
    induction S with
    | nil =>
      intro st h
      exact h
    | cons a rest ih =>
      intro st h
      rw [List.foldl_cons]
      apply ih
      have hnb' : ∀ (d : Fin 4), ((getCell st.cells i).adjacent_cells d).all
          (fun j => !(getCell st.cells j).accessability) = true := by
        intro d
        rw [h]
        exact hnb d
      rw [migrate_one_stuck p sp i a st hnb', h]
  have hF := hfold ((((getCell s.cells i).getList sp).takeWhile
      (fun e => !e.isSep)).filterMap Entry.toAnimal) s rfl
  rw [hF]
  rw [List.filter_eq_self.mpr]
  · exact setCellList_self s.cells i sp
  · intro e he
    exact List.all_eq_true.mp hfree e he

/-- C9: (a) population insertion into an inaccessible cell is rejected
with the water-cell error and commits nothing (`_add_animal_to_island`
raises before touching any list); (b) during one migration stage an
inaccessible cell is never a migration destination: its contents are
untouched, so a water cell that holds no animal still holds none
afterwards; (c) a single accessible cell all of whose recorded
neighbours are inaccessible (the no-migration sanctuary) comes out of
the migration stage with its cell array — in particular its resident
count — unchanged, regardless of the parameters. -/
theorem claim_C9_water_isolation (ph pc : AnimalParams) :
    (∀ (cs : List Cell) (nextId loc : ℕ) (pop : List (String × ℝ × ℕ))
        (rest : List (ℕ × List (String × ℝ × ℕ))),
      (getCell cs loc).accessability = false →
      _add_animal_to_island cs nextId ((loc, pop) :: rest)
        = ((cs, nextId),
            some (toString loc ++
              " is a water cell. Animals cannot be placed in water cell."))) ∧
    (∀ (s : MigState) (k : ℕ), (getCell s.cells k).accessability = false →
      getCell (migration_stage ph pc s).cells k = getCell s.cells k) ∧
    (∀ (s : MigState) (c : ℕ),
      accessible_indices s.cells = [c] →
      (∀ (d : Fin 4), ((getCell s.cells c).adjacent_cells d).all
          (fun j => !(getCell s.cells j).accessability) = true) →
      noSeps s.cells = true →
      (migration_stage ph pc s).cells = s.cells) := by
  refine ⟨?_, ?_, ?_⟩
  · intro cs nextId loc pop rest h
    rw [_add_animal_to_island]
    rw [if_neg (by simp [h])]
  · intro s k hk
    rw [migration_stage_eq]
    apply foldPairs_untouched _ _ s k hk
    intro q hq
    have hmem := (mem_pairsOf (accessible_indices s.cells) q.1 q.2).mp (by
      have : (q.1, q.2) = q := rfl
      rw [this]
      exact hq)
    exact ((mem_accessible s.cells q.1).mp hmem).2
  · intro s c hacc hnb hsep
    rw [migration_stage_eq, hacc]
    show (migrate_species pc Species.carn c (migrate_species ph Species.herb c s)).cells
        = s.cells
    have h1 : (migrate_species ph Species.herb c s).cells = s.cells :=
      migrate_species_stuck ph Species.herb c s hnb (noSeps_slots s.cells hsep c .herb)
    have hnb1 : ∀ (d : Fin 4),
        ((getCell (migrate_species ph Species.herb c s).cells c).adjacent_cells d).all
          (fun j => !(getCell (migrate_species ph Species.herb c s).cells j).accessability)
            = true := by
      intro d
      rw [h1]
      exact hnb d
    have hfree1 : sepFreeList
        ((getCell (migrate_species ph Species.herb c s).cells c).getList .carn)
          = true := by
      rw [h1]
      exact noSeps_slots s.cells hsep c .carn
    rw [migrate_species_stuck pc Species.carn c _ hnb1 hfree1, h1]

/-- Witness for C9: on the sanctuary island, inserting a herbivore into
water cell 0 is rejected with the island unchanged, water cell 0 is
untouched by the migration stage, and the whole sanctuary cell array is
unchanged by the migration stage. -/
theorem claim_C9_witness :
    (_add_animal_to_island sanctuaryIsland 0 [(0, [("Herbivore", 8, 5)])]
      = ((sanctuaryIsland, 0),
          some (toString (0 : ℕ) ++
            " is a water cell. Animals cannot be placed in water cell."))) ∧
    getCell (migration_stage herbivoreParams carnivoreParams sanctuaryState).cells 0
      = getCell sanctuaryState.cells 0 ∧
    (migration_stage herbivoreParams carnivoreParams sanctuaryState).cells
      = sanctuaryState.cells :=
  ⟨(claim_C9_water_isolation herbivoreParams carnivoreParams).1 sanctuaryIsland 0 0 _ []
      (by decide),
   (claim_C9_water_isolation herbivoreParams carnivoreParams).2.1 sanctuaryState 0
      (by decide),
   (claim_C9_water_isolation herbivoreParams carnivoreParams).2.2 sanctuaryState 4
      (by decide) (by decide) (by decide)⟩
